import Mathlib

/-!
Verification of the lexicon-tracker per-collection time-series storage engine.

Shallow embedding of the Rust sources under `src/server/src`:
* the variable-length integer codec (`utils.rs`, and the `ordered_varint`
  sort-order-preserving scheme it relies on),
* the delta-of-delta block codec (`db/block.rs`),
* the database coordinator and collection handle (`db/mod.rs`),
* the newer collection handle with compaction (`db/handle.rs`),
* the firehose event adapter (`db/mod.rs`).

Machine integers are modeled as `Nat`/`Int` with explicit wrap-around
(`% 2^64`) wherever the Rust code can overflow.
-/

namespace LexiconTracker

/-! ### Big-endian byte strings -/

/-- The `L` big-endian base-256 digits of `n` (most significant first). -/
def beBytes : Nat → Nat → List Nat
  | 0, _ => []
  | l + 1, n => n / 2 ^ (8 * l) % 256 :: beBytes l (n % 2 ^ (8 * l))

/-- Read a big-endian byte string back into a number. -/
def fromBE (bs : List Nat) : Nat := bs.foldl (fun acc b => acc * 256 + b) 0

theorem beBytes_length (L n : Nat) : (beBytes L n).length = L := by
  induction L generalizing n with
  | zero => rfl
  | succ l ih => simp [beBytes, ih]

theorem fromBE_foldl_acc (bs : List Nat) (acc : Nat) :
    bs.foldl (fun a b => a * 256 + b) acc = acc * 256 ^ bs.length + fromBE bs := by
  induction bs generalizing acc with
  | nil => simp [fromBE]
  | cons b rest ih =>
    simp only [List.foldl_cons, List.length_cons, fromBE, Nat.zero_mul, Nat.zero_add] at *
    rw [ih (acc * 256 + b), ih b]
    ring

theorem fromBE_cons (b : Nat) (bs : List Nat) :
    fromBE (b :: bs) = b * 256 ^ bs.length + fromBE bs := by
  simp only [fromBE, List.foldl_cons]
  rw [fromBE_foldl_acc]
  simp [fromBE]

theorem pow256_eq (l : Nat) : (256 : Nat) ^ l = 2 ^ (8 * l) := by
  rw [show (256 : Nat) = 2 ^ 8 from rfl, ← Nat.pow_mul]

theorem fromBE_beBytes (L n : Nat) (h : n < 2 ^ (8 * L)) :
    fromBE (beBytes L n) = n := by
  induction L generalizing n with
  | zero =>
    simp only [Nat.mul_zero, pow_zero, Nat.lt_one_iff] at h
    simp [beBytes, fromBE, h]
  | succ l ih =>
    simp only [beBytes, fromBE_cons, beBytes_length]
    rw [ih (n % 2 ^ (8 * l)) (Nat.mod_lt _ (Nat.pos_pow_of_pos _ (by norm_num)))]
    rw [pow256_eq]
    have hpow : 2 ^ (8 * (l + 1)) = 2 ^ (8 * l) * 256 := by
      rw [Nat.mul_succ, Nat.pow_add]
    have hdiv : n / 2 ^ (8 * l) < 256 := by
      rw [Nat.div_lt_iff_lt_mul (Nat.pos_pow_of_pos _ (by norm_num))]
      calc n < 2 ^ (8 * (l + 1)) := h
        _ = 256 * 2 ^ (8 * l) := by rw [hpow]; ring
    rw [Nat.mod_eq_of_lt hdiv]
    rw [Nat.mul_comm (n / 2 ^ (8 * l)) (2 ^ (8 * l))]
    exact Nat.div_add_mod n (2 ^ (8 * l))

/-! ### Unsigned varint codec

The repository uses the order-preserving variable-length integer scheme of
the `ordered_varint` crate.  `varint_unsigned_encoded_len` below is the
direct translation of the helper in `src/server/src/utils.rs` (which the
source comments document as matching `ordered_varint`): a `u64` value
occupying `L` bytes stores `L - 1` in the top four bits of the first byte
and the value itself big-endian in the remaining `8 L - 4` bits. -/

/-- The closure passed to `find_map` in `varint_unsigned_encoded_len`
(`src/server/src/utils.rs`): from the first nonzero big-endian byte and its
index, compute the encoded length. -/
def vulen_step (p : Nat × Nat) : Option Nat :=
  if p.2 > 0 then
    some (if p.2 < 16 then (7 - p.1) + 1 else (7 - p.1) + 2)
  else none

/-- Translation of `varint_unsigned_encoded_len` from `src/server/src/utils.rs`:
walk the eight big-endian bytes of the value, and from the first nonzero byte
compute the encoded length. -/
def varint_unsigned_encoded_len (value : Nat) : Nat :=
  (((List.range 8).zip
      [value / 2 ^ 56 % 256, value / 2 ^ 48 % 256, value / 2 ^ 40 % 256,
       value / 2 ^ 32 % 256, value / 2 ^ 24 % 256, value / 2 ^ 16 % 256,
       value / 2 ^ 8 % 256, value % 256]).findSome? vulen_step).getD 0 |>.max 1

/-- Closed-form of the encoded length: one byte per 8 bits beyond the
first 4-bit window. -/
def rangedLen (v : Nat) : Nat :=
  if v < 2 ^ 4 then 1
  else if v < 2 ^ 12 then 2
  else if v < 2 ^ 20 then 3
  else if v < 2 ^ 28 then 4
  else if v < 2 ^ 36 then 5
  else if v < 2 ^ 44 then 6
  else if v < 2 ^ 52 then 7
  else if v < 2 ^ 60 then 8
  else 9

set_option maxHeartbeats 4000000 in
theorem varint_unsigned_encoded_len_eq (v : Nat) (hv : v < 2 ^ 64) :
    varint_unsigned_encoded_len v = rangedLen v := by
  by_cases h0 : v = 0
  · subst h0; decide
  have hz : (List.range 8).zip
      [v / 2 ^ 56 % 256, v / 2 ^ 48 % 256, v / 2 ^ 40 % 256,
       v / 2 ^ 32 % 256, v / 2 ^ 24 % 256, v / 2 ^ 16 % 256,
       v / 2 ^ 8 % 256, v % 256] =
      [(0, v / 2 ^ 56 % 256), (1, v / 2 ^ 48 % 256), (2, v / 2 ^ 40 % 256),
       (3, v / 2 ^ 32 % 256), (4, v / 2 ^ 24 % 256), (5, v / 2 ^ 16 % 256),
       (6, v / 2 ^ 8 % 256), (7, v % 256)] := rfl
  have vz : ∀ i : Nat, vulen_step (i, 0) = none := by
    intro i; simp [vulen_step]
  unfold varint_unsigned_encoded_len
  rw [hz]
  by_cases h1 : v < 2 ^ 8
  · have b0 : v / 2 ^ 56 % 256 = 0 := by omega
    have b1 : v / 2 ^ 48 % 256 = 0 := by omega
    have b2 : v / 2 ^ 40 % 256 = 0 := by omega
    have b3 : v / 2 ^ 32 % 256 = 0 := by omega
    have b4 : v / 2 ^ 24 % 256 = 0 := by omega
    have b5 : v / 2 ^ 16 % 256 = 0 := by omega
    have b6 : v / 2 ^ 8 % 256 = 0 := by omega
    by_cases hs : v % 256 < 16
    · have hstep : vulen_step (7, v % 256) = some 1 := by
        simp only [vulen_step]
        norm_num
        exact ⟨by omega, by omega⟩
      simp only [List.findSome?, b0, b1, b2, b3, b4, b5, b6, vz, hstep]
      norm_num
      unfold rangedLen
      split_ifs <;> omega
    · have hstep : vulen_step (7, v % 256) = some 2 := by
        simp only [vulen_step]
        norm_num
        exact ⟨by omega, by omega⟩
      simp only [List.findSome?, b0, b1, b2, b3, b4, b5, b6, vz, hstep]
      norm_num
      unfold rangedLen
      split_ifs <;> omega
  by_cases h2 : v < 2 ^ 16
  · have b0 : v / 2 ^ 56 % 256 = 0 := by omega
    have b1 : v / 2 ^ 48 % 256 = 0 := by omega
    have b2 : v / 2 ^ 40 % 256 = 0 := by omega
    have b3 : v / 2 ^ 32 % 256 = 0 := by omega
    have b4 : v / 2 ^ 24 % 256 = 0 := by omega
    have b5 : v / 2 ^ 16 % 256 = 0 := by omega
    by_cases hs : v / 2 ^ 8 % 256 < 16
    · have hstep : vulen_step (6, v / 2 ^ 8 % 256) = some 2 := by
        simp only [vulen_step]
        norm_num
        exact ⟨by omega, by omega⟩
      simp only [List.findSome?, b0, b1, b2, b3, b4, b5, vz, hstep]
      norm_num
      unfold rangedLen
      split_ifs <;> omega
    · have hstep : vulen_step (6, v / 2 ^ 8 % 256) = some 3 := by
        simp only [vulen_step]
        norm_num
        exact ⟨by omega, by omega⟩
      simp only [List.findSome?, b0, b1, b2, b3, b4, b5, vz, hstep]
      norm_num
      unfold rangedLen
      split_ifs <;> omega
  by_cases h3 : v < 2 ^ 24
  · have b0 : v / 2 ^ 56 % 256 = 0 := by omega
    have b1 : v / 2 ^ 48 % 256 = 0 := by omega
    have b2 : v / 2 ^ 40 % 256 = 0 := by omega
    have b3 : v / 2 ^ 32 % 256 = 0 := by omega
    have b4 : v / 2 ^ 24 % 256 = 0 := by omega
    by_cases hs : v / 2 ^ 16 % 256 < 16
    · have hstep : vulen_step (5, v / 2 ^ 16 % 256) = some 3 := by
        simp only [vulen_step]
        norm_num
        exact ⟨by omega, by omega⟩
      simp only [List.findSome?, b0, b1, b2, b3, b4, vz, hstep]
      norm_num
      unfold rangedLen
      split_ifs <;> omega
    · have hstep : vulen_step (5, v / 2 ^ 16 % 256) = some 4 := by
        simp only [vulen_step]
        norm_num
        exact ⟨by omega, by omega⟩
      simp only [List.findSome?, b0, b1, b2, b3, b4, vz, hstep]
      norm_num
      unfold rangedLen
      split_ifs <;> omega
  by_cases h4 : v < 2 ^ 32
  · have b0 : v / 2 ^ 56 % 256 = 0 := by omega
    have b1 : v / 2 ^ 48 % 256 = 0 := by omega
    have b2 : v / 2 ^ 40 % 256 = 0 := by omega
    have b3 : v / 2 ^ 32 % 256 = 0 := by omega
    by_cases hs : v / 2 ^ 24 % 256 < 16
    · have hstep : vulen_step (4, v / 2 ^ 24 % 256) = some 4 := by
        simp only [vulen_step]
        norm_num
        exact ⟨by omega, by omega⟩
      simp only [List.findSome?, b0, b1, b2, b3, vz, hstep]
      norm_num
      unfold rangedLen
      split_ifs <;> omega
    · have hstep : vulen_step (4, v / 2 ^ 24 % 256) = some 5 := by
        simp only [vulen_step]
        norm_num
        exact ⟨by omega, by omega⟩
      simp only [List.findSome?, b0, b1, b2, b3, vz, hstep]
      norm_num
      unfold rangedLen
      split_ifs <;> omega
  by_cases h5 : v < 2 ^ 40
  · have b0 : v / 2 ^ 56 % 256 = 0 := by omega
    have b1 : v / 2 ^ 48 % 256 = 0 := by omega
    have b2 : v / 2 ^ 40 % 256 = 0 := by omega
    by_cases hs : v / 2 ^ 32 % 256 < 16
    · have hstep : vulen_step (3, v / 2 ^ 32 % 256) = some 5 := by
        simp only [vulen_step]
        norm_num
        exact ⟨by omega, by omega⟩
      simp only [List.findSome?, b0, b1, b2, vz, hstep]
      norm_num
      unfold rangedLen
      split_ifs <;> omega
    · have hstep : vulen_step (3, v / 2 ^ 32 % 256) = some 6 := by
        simp only [vulen_step]
        norm_num
        exact ⟨by omega, by omega⟩
      simp only [List.findSome?, b0, b1, b2, vz, hstep]
      norm_num
      unfold rangedLen
      split_ifs <;> omega
  by_cases h6 : v < 2 ^ 48
  · have b0 : v / 2 ^ 56 % 256 = 0 := by omega
    have b1 : v / 2 ^ 48 % 256 = 0 := by omega
    by_cases hs : v / 2 ^ 40 % 256 < 16
    · have hstep : vulen_step (2, v / 2 ^ 40 % 256) = some 6 := by
        simp only [vulen_step]
        norm_num
        exact ⟨by omega, by omega⟩
      simp only [List.findSome?, b0, b1, vz, hstep]
      norm_num
      unfold rangedLen
      split_ifs <;> omega
    · have hstep : vulen_step (2, v / 2 ^ 40 % 256) = some 7 := by
        simp only [vulen_step]
        norm_num
        exact ⟨by omega, by omega⟩
      simp only [List.findSome?, b0, b1, vz, hstep]
      norm_num
      unfold rangedLen
      split_ifs <;> omega
  by_cases h7 : v < 2 ^ 56
  · have b0 : v / 2 ^ 56 % 256 = 0 := by omega
    by_cases hs : v / 2 ^ 48 % 256 < 16
    · have hstep : vulen_step (1, v / 2 ^ 48 % 256) = some 7 := by
        simp only [vulen_step]
        norm_num
        exact ⟨by omega, by omega⟩
      simp only [List.findSome?, b0, vz, hstep]
      norm_num
      unfold rangedLen
      split_ifs <;> omega
    · have hstep : vulen_step (1, v / 2 ^ 48 % 256) = some 8 := by
        simp only [vulen_step]
        norm_num
        exact ⟨by omega, by omega⟩
      simp only [List.findSome?, b0, vz, hstep]
      norm_num
      unfold rangedLen
      split_ifs <;> omega
  · by_cases hs : v / 2 ^ 56 % 256 < 16
    · have hstep : vulen_step (0, v / 2 ^ 56 % 256) = some 8 := by
        simp only [vulen_step]
        norm_num
        exact ⟨by omega, by omega⟩
      simp only [List.findSome?, vz, hstep]
      norm_num
      unfold rangedLen
      split_ifs <;> omega
    · have hstep : vulen_step (0, v / 2 ^ 56 % 256) = some 9 := by
        simp only [vulen_step]
        norm_num
        exact ⟨by omega, by omega⟩
      simp only [List.findSome?, vz, hstep]
      norm_num
      unfold rangedLen
      split_ifs <;> omega

theorem rangedLen_pos (v : Nat) : 1 ≤ rangedLen v := by
  unfold rangedLen; split_ifs <;> omega

theorem rangedLen_le_nine (v : Nat) : rangedLen v ≤ 9 := by
  unfold rangedLen; split_ifs <;> omega

set_option maxHeartbeats 1000000 in
theorem rangedLen_mono (a b : Nat) (h : a ≤ b) : rangedLen a ≤ rangedLen b := by
  unfold rangedLen; split_ifs <;> omega

set_option maxHeartbeats 1000000 in
theorem lt_pow_rangedLen (v : Nat) (hv : v < 2 ^ 64) :
    v < 2 ^ (8 * rangedLen v - 4) := by
  unfold rangedLen; split_ifs <;> norm_num <;> omega

/-- The order-preserving unsigned varint encoding of the `ordered_varint`
crate, as documented by `varint_unsigned_encoded_len` in
`src/server/src/utils.rs`: for an `L`-byte encoding, the top four bits of
the first byte hold `L - 1` and the remaining `8 L - 4` bits hold the value
big-endian. -/
def varuint_encode (v : Nat) : List Nat :=
  beBytes (varint_unsigned_encoded_len v)
    ((varint_unsigned_encoded_len v - 1) *
      2 ^ (8 * varint_unsigned_encoded_len v - 4) + v)

/-- Decoding of the unsigned varint: the top four bits of the first byte
give the number of remaining bytes; those bytes plus the low four bits of
the first byte hold the value big-endian.  `none` on an empty or truncated
input (the `UnexpectedEof` case of `ordered_varint`). -/
def varuint_decode : List Nat → Option (Nat × List Nat)
  | [] => none
  | b :: rest =>
    if rest.length < b / 16 then none
    else some (fromBE (b % 16 :: rest.take (b / 16)), rest.drop (b / 16))

theorem varuint_encode_length (v : Nat) :
    (varuint_encode v).length = varint_unsigned_encoded_len v := by
  unfold varuint_encode; exact beBytes_length _ _

theorem varuint_decode_encode (v : Nat) (hv : v < 2 ^ 64) (s : List Nat) :
    varuint_decode (varuint_encode v ++ s) = some (v, s) := by
  unfold varuint_encode
  rw [varint_unsigned_encoded_len_eq v hv]
  have h1 : 1 ≤ rangedLen v := rangedLen_pos v
  have h9 : rangedLen v ≤ 9 := rangedLen_le_nine v
  have hv4 : v < 2 ^ (8 * rangedLen v - 4) := lt_pow_rangedLen v hv
  obtain ⟨l, hl⟩ : ∃ l, rangedLen v = l + 1 := ⟨rangedLen v - 1, by omega⟩
  rw [hl] at hv4 ⊢
  have hl8 : l ≤ 8 := by omega
  have hv4' : v < 2 ^ (8 * l + 4) := by
    have : 8 * (l + 1) - 4 = 8 * l + 4 := by omega
    rwa [this] at hv4
  have hpow : (2 : Nat) ^ (8 * (l + 1) - 4) = 16 * 2 ^ (8 * l) := by
    have h84 : 8 * (l + 1) - 4 = 8 * l + 4 := by omega
    rw [h84, Nat.pow_add]
    ring
  set N : Nat := (l + 1 - 1) * 2 ^ (8 * (l + 1) - 4) + v with hN
  have hNv : N = v + l * 16 * 2 ^ (8 * l) := by
    rw [hN, hpow, Nat.add_sub_cancel]; ring
  have hposl : 0 < (2 : Nat) ^ (8 * l) := Nat.pos_pow_of_pos _ (by norm_num)
  have hdivsmall : v / 2 ^ (8 * l) < 16 := by
    apply Nat.div_lt_of_lt_mul
    calc v < 2 ^ (8 * l + 4) := hv4'
      _ = 2 ^ (8 * l) * 16 := by rw [Nat.pow_add]
  have hNdiv : N / 2 ^ (8 * l) = v / 2 ^ (8 * l) + l * 16 := by
    rw [hNv, Nat.add_mul_div_right _ _ hposl]
  have hNmod : N % 2 ^ (8 * l) = v % 2 ^ (8 * l) := by
    rw [hNv, Nat.add_mul_mod_self_right]
  have hheadlt : N / 2 ^ (8 * l) < 256 := by omega
  show varuint_decode (beBytes (l + 1) N ++ s) = some (v, s)
  have hbe : beBytes (l + 1) N = N / 2 ^ (8 * l) % 256 :: beBytes l (N % 2 ^ (8 * l)) := rfl
  rw [hbe]
  have hhead : N / 2 ^ (8 * l) % 256 = v / 2 ^ (8 * l) + l * 16 := by
    rw [Nat.mod_eq_of_lt hheadlt, hNdiv]
  simp only [List.cons_append]
  simp only [varuint_decode]
  have hb16 : (N / 2 ^ (8 * l) % 256) / 16 = l := by
    rw [hhead]
    generalize hX : v / 2 ^ (8 * l) = X at hdivsmall ⊢
    omega
  have hb16m : (N / 2 ^ (8 * l) % 256) % 16 = v / 2 ^ (8 * l) := by
    rw [hhead]
    generalize hX : v / 2 ^ (8 * l) = X at hdivsmall ⊢
    omega
  rw [hb16, hb16m]
  have hlen : (beBytes l (N % 2 ^ (8 * l)) ++ s).length = l + s.length := by
    simp [beBytes_length]
  have htake : (beBytes l (N % 2 ^ (8 * l)) ++ s).take l = beBytes l (N % 2 ^ (8 * l)) := by
    have := List.take_left (beBytes l (N % 2 ^ (8 * l))) s
    rwa [beBytes_length] at this
  have hdrop : (beBytes l (N % 2 ^ (8 * l)) ++ s).drop l = s := by
    have := List.drop_left (beBytes l (N % 2 ^ (8 * l))) s
    rwa [beBytes_length] at this
  rw [if_neg (by omega)]
  rw [htake, hdrop]
  have hfrom : fromBE (v / 2 ^ (8 * l) :: beBytes l (N % 2 ^ (8 * l))) = v := by
    rw [fromBE_cons, beBytes_length, hNmod,
      fromBE_beBytes l _ (Nat.mod_lt _ hposl), pow256_eq]
    calc v / 2 ^ (8 * l) * 2 ^ (8 * l) + v % 2 ^ (8 * l)
        = 2 ^ (8 * l) * (v / 2 ^ (8 * l)) + v % 2 ^ (8 * l) := by ring
      _ = v := Nat.div_add_mod v (2 ^ (8 * l))
  rw [hfrom]

/-! ### Lexicographic byte order -/

/-- Byte-wise lexicographic strict comparison (memcmp order, as used by the
LSM store on keys): a proper initial segment sorts before its extensions. -/
def lexLt : List Nat → List Nat → Bool
  | _, [] => false
  | [], _ :: _ => true
  | a :: as, b :: bs => if a < b then true else if b < a then false else lexLt as bs

theorem lexLt_nil_cons (b : Nat) (bs : List Nat) : lexLt [] (b :: bs) = true := rfl

theorem lexLt_cons_cons (a b : Nat) (as bs : List Nat) :
    lexLt (a :: as) (b :: bs) =
      if a < b then true else if b < a then false else lexLt as bs := rfl

theorem lexLt_irrefl (xs : List Nat) : lexLt xs xs = false := by
  induction xs with
  | nil => rfl
  | cons a as ih => simp [lexLt_cons_cons, ih]

theorem lexLt_asymm (xs ys : List Nat) (h : lexLt xs ys = true) :
    lexLt ys xs = false := by
  induction xs generalizing ys with
  | nil =>
    cases ys with
    | nil => simp [lexLt] at h
    | cons b bs => rfl
  | cons a as ih =>
    cases ys with
    | nil => simp [lexLt] at h
    | cons b bs =>
      rw [lexLt_cons_cons] at h
      rw [lexLt_cons_cons]
      by_cases hab : a < b
      · rw [if_neg (show ¬ b < a from by omega), if_pos hab]
      · by_cases hba : b < a
        · rw [if_neg hab, if_pos hba] at h
          exact absurd h (by simp)
        · rw [if_neg hab, if_neg hba] at h
          rw [if_neg hba, if_neg hab]
          exact ih bs h

theorem lexLt_append_left (p s t : List Nat) :
    lexLt (p ++ s) (p ++ t) = lexLt s t := by
  induction p with
  | nil => rfl
  | cons a as ih => simp [lexLt_cons_cons, ih]

theorem pow8succ (l : Nat) : (2 : Nat) ^ (8 * (l + 1)) = 256 * 2 ^ (8 * l) := by
  rw [Nat.mul_succ, Nat.pow_add, show (2 : Nat) ^ 8 = 256 from rfl, Nat.mul_comm]

theorem lexLt_beBytes (L : Nat) (Na Nb : Nat) (h : Na < Nb) (hb : Nb < 2 ^ (8 * L))
    (s t : List Nat) : lexLt (beBytes L Na ++ s) (beBytes L Nb ++ t) = true := by
  induction L generalizing Na Nb s t with
  | zero => simp at hb; omega
  | succ l ih =>
    have hposl : 0 < (2 : Nat) ^ (8 * l) := Nat.pos_pow_of_pos _ (by norm_num)
    have hdb : Nb / 2 ^ (8 * l) < 256 := by
      apply Nat.div_lt_of_lt_mul
      calc Nb < 2 ^ (8 * (l + 1)) := hb
        _ = 256 * 2 ^ (8 * l) := pow8succ l
        _ = 2 ^ (8 * l) * 256 := by ring
    have hda_le : Na / 2 ^ (8 * l) ≤ Nb / 2 ^ (8 * l) :=
      Nat.div_le_div_right (le_of_lt h)
    have hda : Na / 2 ^ (8 * l) < 256 := lt_of_le_of_lt hda_le hdb
    rw [show beBytes (l + 1) Na
        = Na / 2 ^ (8 * l) % 256 :: beBytes l (Na % 2 ^ (8 * l)) from rfl]
    rw [show beBytes (l + 1) Nb
        = Nb / 2 ^ (8 * l) % 256 :: beBytes l (Nb % 2 ^ (8 * l)) from rfl]
    simp only [List.cons_append]
    rw [lexLt_cons_cons, Nat.mod_eq_of_lt hda, Nat.mod_eq_of_lt hdb]
    rcases Nat.lt_or_ge (Na / 2 ^ (8 * l)) (Nb / 2 ^ (8 * l)) with hlt | hge
    · rw [if_pos hlt]
    · have heq : Na / 2 ^ (8 * l) = Nb / 2 ^ (8 * l) := le_antisymm hda_le hge
      rw [heq, if_neg (lt_irrefl _), if_neg (lt_irrefl _)]
      apply ih
      · have h1 := Nat.div_add_mod Na (2 ^ (8 * l))
        have h2 := Nat.div_add_mod Nb (2 ^ (8 * l))
        rw [heq] at h1
        generalize hP : 2 ^ (8 * l) * (Nb / 2 ^ (8 * l)) = P at h1 h2
        omega
      · exact Nat.mod_lt _ hposl

theorem varuint_encode_head (v : Nat) (hv : v < 2 ^ 64) :
    varuint_encode v =
      (v / 2 ^ (8 * (rangedLen v - 1)) + (rangedLen v - 1) * 16) ::
        beBytes (rangedLen v - 1)
          (((rangedLen v - 1) * 2 ^ (8 * rangedLen v - 4) + v) % 2 ^ (8 * (rangedLen v - 1))) := by
  unfold varuint_encode
  rw [varint_unsigned_encoded_len_eq v hv]
  have h1 := rangedLen_pos v
  have h9 := rangedLen_le_nine v
  have hv4 := lt_pow_rangedLen v hv
  obtain ⟨l, hl⟩ : ∃ l, rangedLen v = l + 1 := ⟨rangedLen v - 1, by omega⟩
  rw [hl] at hv4 ⊢
  simp only [Nat.add_sub_cancel]
  have hl8 : l ≤ 8 := by omega
  have hv4' : v < 2 ^ (8 * l + 4) := by
    have h84 : 8 * (l + 1) - 4 = 8 * l + 4 := by omega
    rwa [h84] at hv4
  have hpow : (2 : Nat) ^ (8 * (l + 1) - 4) = 16 * 2 ^ (8 * l) := by
    have h84 : 8 * (l + 1) - 4 = 8 * l + 4 := by omega
    rw [h84, Nat.pow_add]
    ring
  have hposl : 0 < (2 : Nat) ^ (8 * l) := Nat.pos_pow_of_pos _ (by norm_num)
  have hNv : l * 2 ^ (8 * (l + 1) - 4) + v = v + l * 16 * 2 ^ (8 * l) := by
    rw [hpow]; ring
  have hdivsmall : v / 2 ^ (8 * l) < 16 := by
    apply Nat.div_lt_of_lt_mul
    calc v < 2 ^ (8 * l + 4) := hv4'
      _ = 2 ^ (8 * l) * 16 := by rw [Nat.pow_add]
  have hbe : beBytes (l + 1) (l * 2 ^ (8 * (l + 1) - 4) + v)
      = (l * 2 ^ (8 * (l + 1) - 4) + v) / 2 ^ (8 * l) % 256 ::
        beBytes l ((l * 2 ^ (8 * (l + 1) - 4) + v) % 2 ^ (8 * l)) := rfl
  rw [hbe]
  have hNdiv : (l * 2 ^ (8 * (l + 1) - 4) + v) / 2 ^ (8 * l) = v / 2 ^ (8 * l) + l * 16 := by
    rw [hNv, Nat.add_mul_div_right _ _ hposl]
  have hheadlt : (l * 2 ^ (8 * (l + 1) - 4) + v) / 2 ^ (8 * l) < 256 := by omega
  rw [Nat.mod_eq_of_lt hheadlt, hNdiv]

theorem varuint_div_lt_sixteen (v : Nat) (hv : v < 2 ^ 64) :
    v / 2 ^ (8 * (rangedLen v - 1)) < 16 := by
  have h1 := rangedLen_pos v
  have hv4 := lt_pow_rangedLen v hv
  apply Nat.div_lt_of_lt_mul
  calc v < 2 ^ (8 * rangedLen v - 4) := hv4
    _ = 2 ^ (8 * (rangedLen v - 1)) * 16 := by
      have h84 : 8 * rangedLen v - 4 = 8 * (rangedLen v - 1) + 4 := by omega
      rw [h84, Nat.pow_add]

theorem varuint_encode_lexLt (a b : Nat) (hA : a < 2 ^ 64) (hB : b < 2 ^ 64)
    (h : a < b) (s t : List Nat) :
    lexLt (varuint_encode a ++ s) (varuint_encode b ++ t) = true := by
  have hmono := rangedLen_mono a b (le_of_lt h)
  rcases eq_or_lt_of_le hmono with heq | hlt
  · unfold varuint_encode
    rw [varint_unsigned_encoded_len_eq a hA, varint_unsigned_encoded_len_eq b hB, ← heq]
    apply lexLt_beBytes
    · omega
    · have hb4 := lt_pow_rangedLen b hB
      rw [← heq] at hb4
      have h9 := rangedLen_le_nine a
      have h1 := rangedLen_pos a
      have hprod : (rangedLen a - 1) * 2 ^ (8 * rangedLen a - 4)
          ≤ 8 * 2 ^ (8 * rangedLen a - 4) :=
        Nat.mul_le_mul_right _ (by omega)
      obtain ⟨m, hm⟩ : ∃ m, 8 * rangedLen a = m + 4 := ⟨8 * rangedLen a - 4, by omega⟩
      have hm4 : 8 * rangedLen a - 4 = m := by omega
      rw [hm4] at hb4 hprod
      rw [hm4, hm, Nat.pow_add, show (2 : Nat) ^ 4 = 16 from rfl]
      omega
  · rw [varuint_encode_head a hA, varuint_encode_head b hB]
    simp only [List.cons_append]
    rw [lexLt_cons_cons, if_pos]
    have hda := varuint_div_lt_sixteen a hA
    have h1a := rangedLen_pos a
    calc a / 2 ^ (8 * (rangedLen a - 1)) + (rangedLen a - 1) * 16
        < rangedLen a * 16 := by omega
      _ ≤ (rangedLen b - 1) * 16 := by
          have hle : rangedLen a ≤ rangedLen b - 1 := by omega
          exact Nat.mul_le_mul_right _ hle
      _ ≤ b / 2 ^ (8 * (rangedLen b - 1)) + (rangedLen b - 1) * 16 :=
          Nat.le_add_left _ _

/-! ### 64-bit wrap-around and signed varints -/

/-- Interpret an integer modulo `2^64` into the signed 64-bit range: the
effect of Rust `as i64` on a 128-bit intermediate. -/
def wrapI64 (x : Int) : Int := (x + 2 ^ 63) % 2 ^ 64 - 2 ^ 63

/-- Interpret an integer modulo `2^64` as unsigned: Rust `as u64`. -/
def wrapU64 (x : Int) : Nat := (x % 2 ^ 64).toNat

theorem wrapI64_lb (x : Int) : -(2 ^ 63) ≤ wrapI64 x := by
  unfold wrapI64; omega

theorem wrapI64_ub (x : Int) : wrapI64 x < 2 ^ 63 := by
  unfold wrapI64; omega

/-- Zig-zag mapping of a signed 64-bit value onto the unsigned range, the
signed-to-unsigned step of the varint codec. -/
def zigzag (x : Int) : Nat :=
  if 0 ≤ x then (2 * x).toNat else (-(2 * x) - 1).toNat

/-- Inverse of `zigzag`. -/
def unzigzag (n : Nat) : Int :=
  if n % 2 = 0 then ((n / 2 : Nat) : Int) else -(((n / 2 : Nat) : Int) + 1)

/-- Signed varint encoding: zig-zag then the unsigned path. -/
def varint_signed_encode (x : Int) : List Nat := varuint_encode (zigzag x)

/-- Signed varint decoding. -/
def varint_signed_decode (bs : List Nat) : Option (Int × List Nat) :=
  (varuint_decode bs).map fun p => (unzigzag p.1, p.2)

theorem zigzag_lt (x : Int) (h1 : -(2 ^ 63) ≤ x) (h2 : x < 2 ^ 63) :
    zigzag x < 2 ^ 64 := by
  unfold zigzag; split_ifs <;> omega

theorem unzigzag_zigzag (x : Int) : unzigzag (zigzag x) = x := by
  unfold zigzag unzigzag
  split_ifs <;> omega

theorem varint_signed_decode_encode (x : Int) (h1 : -(2 ^ 63) ≤ x)
    (h2 : x < 2 ^ 63) (s : List Nat) :
    varint_signed_decode (varint_signed_encode x ++ s) = some (x, s) := by
  unfold varint_signed_encode varint_signed_decode
  rw [varuint_decode_encode _ (zigzag_lt x h1 h2) s]
  simp [unzigzag_zigzag]

theorem varuint_decode_consume (bs : List Nat) (v : Nat) (rest : List Nat)
    (h : varuint_decode bs = some (v, rest)) : rest.length < bs.length := by
  cases bs with
  | nil => simp [varuint_decode] at h
  | cons b tail =>
    simp only [varuint_decode] at h
    by_cases hc : tail.length < b / 16
    · rw [if_pos hc] at h; cases h
    · rw [if_neg hc] at h
      injection h with h'
      rw [Prod.mk.injEq] at h'
      obtain ⟨h1, h2⟩ := h'
      rw [← h2]
      simp only [List.length_drop, List.length_cons]
      omega

theorem varint_signed_decode_consume (bs : List Nat) (x : Int) (rest : List Nat)
    (h : varint_signed_decode bs = some (x, rest)) : rest.length < bs.length := by
  unfold varint_signed_decode at h
  cases hu : varuint_decode bs with
  | none => rw [hu] at h; cases h
  | some p =>
    obtain ⟨v, r⟩ := p
    rw [hu] at h
    replace h : some (unzigzag v, r) = some (x, rest) := h
    injection h with h'
    rw [Prod.mk.injEq] at h'
    obtain ⟨h1, h2⟩ := h'
    rw [← h2]
    exact varuint_decode_consume bs v r (by rw [hu])

/-! ### Block codec (`src/server/src/db/block.rs`) -/

/-- An in-memory item (`Item<T>`): a timestamp plus the opaque serialized
payload bytes of `T`. -/
structure Item where
  timestamp : Nat
  data : List Nat
deriving DecidableEq, Repr

/-- `ItemEncoder::encode` (`src/server/src/db/block.rs` lines 50-67) run over
a list of items, threading the encoder state `(prev_timestamp, prev_delta)`
exactly as the Rust loop `for item in items { encoder.encode(&item)? }` does.
When `prev_timestamp == 0` the encoder takes the first-item branch: it
records the item timestamp and writes only the length-prefixed data, no
delta.  Otherwise it writes the signed delta-of-delta varint, then the
length-prefixed data.  All 64-bit arithmetic wraps as in Rust. -/
def ItemEncoder.encodeList (prev_timestamp : Nat) (prev_delta : Int) :
    List Item → List Nat
  | [] => []
  | item :: rest =>
    if prev_timestamp = 0 then
      varuint_encode item.data.length ++ item.data ++
        ItemEncoder.encodeList item.timestamp prev_delta rest
    else
      varint_signed_encode
          (wrapI64 (wrapI64 ((item.timestamp : Int) - (prev_timestamp : Int)) - prev_delta)) ++
        varuint_encode item.data.length ++ item.data ++
        ItemEncoder.encodeList item.timestamp
          (wrapI64 ((item.timestamp : Int) - (prev_timestamp : Int))) rest

/-- A full `ItemEncoder` run from the fresh state of `ItemEncoder::new`
(`prev_timestamp = 0`, `prev_delta = 0`). -/
def encodeItems (items : List Item) : List Nat := ItemEncoder.encodeList 0 0 items

/-- `ItemDecoder::read_item`: read a length varint (an `UnexpectedEof` there
is mapped to a clean `Ok(None)`), then exactly `data_len` payload bytes with
`read_exact` (a shortfall there is an IO error, the outer `none`). -/
def read_item (stream : List Nat) : Option (Option (List Nat × List Nat)) :=
  match varuint_decode stream with
  | none => some none
  | some (data_len, rest) =>
    if rest.length < data_len then none
    else some (some (rest.take data_len, rest.drop data_len))

theorem read_item_consume (stream data rest2 : List Nat)
    (h : read_item stream = some (some (data, rest2))) :
    rest2.length ≤ stream.length := by
  unfold read_item at h
  cases hu : varuint_decode stream with
  | none => rw [hu] at h; cases h
  | some p =>
    obtain ⟨len, r⟩ := p
    rw [hu] at h
    replace h : (if r.length < len then none
        else some (some (r.take len, r.drop len))) = some (some (data, rest2)) := h
    by_cases hc : r.length < len
    · rw [if_pos hc] at h; cases h
    · rw [if_neg hc] at h
      injection h with h'
      injection h' with h2
      rw [Prod.mk.injEq] at h2
      obtain ⟨h3, h4⟩ := h2
      rw [← h4]
      have hcons := varuint_decode_consume stream len r (by rw [hu])
      simp only [List.length_drop]
      omega

/-- `ItemDecoder::decode` iterated to exhaustion over the items after the
first (`src/server/src/db/block.rs` lines 100-170), with explicit fuel so
the function stays kernel-computable: read a signed delta varint
(`read_timestamp`; EOF there ends iteration cleanly), fold it into
`current_delta` and `current_timestamp` with wrapping arithmetic, then read
the length-prefixed payload (`expected data after delta` if missing).
Returns the decoded items and whether iteration stopped with an error. -/
def ItemDecoder.decodeRestAux : Nat → List Nat → Int → Nat → List Item × Bool
  | 0, _, _, _ => ([], false)
  | fuel + 1, stream, current_delta, current_timestamp =>
    match varint_signed_decode stream with
    | none => ([], false)
    | some (delta, rest1) =>
      match read_item rest1 with
      | none => ([], true)
      | some none => ([], true)
      | some (some (data, rest2)) =>
        let d := wrapI64 (current_delta + delta)
        let ts := wrapU64 ((current_timestamp : Int) + d)
        let p := ItemDecoder.decodeRestAux fuel rest2 d ts
        (⟨ts, data⟩ :: p.1, p.2)

/-- Every decoder iteration consumes at least one input byte, so
`stream.length + 1` units of fuel always suffice. -/
def ItemDecoder.decodeRest (stream : List Nat) (current_delta : Int)
    (current_timestamp : Nat) : List Item × Bool :=
  ItemDecoder.decodeRestAux (stream.length + 1) stream current_delta current_timestamp

theorem decodeRestAux_congr (f1 : Nat) : ∀ (f2 : Nat) (stream : List Nat)
    (cd : Int) (ct : Nat), stream.length < f1 → stream.length < f2 →
    ItemDecoder.decodeRestAux f1 stream cd ct
      = ItemDecoder.decodeRestAux f2 stream cd ct := by
  induction f1 with
  | zero => intro f2 stream cd ct h1; omega
  | succ f ih =>
    intro f2 stream cd ct h1 h2
    cases f2 with
    | zero => omega
    | succ g =>
      simp only [ItemDecoder.decodeRestAux]
      split
      · rfl
      · rename_i delta rest1 hs
        split
        · rfl
        · rfl
        · rename_i data rest2 hr
          have hl1 := varint_signed_decode_consume stream delta rest1 hs
          have hl2 := read_item_consume rest1 data rest2 hr
          have heq := ih g rest2 (wrapI64 (cd + delta))
            (wrapU64 ((ct : Int) + wrapI64 (cd + delta))) (by omega) (by omega)
          simp only [heq]

/-- A full `ItemDecoder` run from `ItemDecoder::new(reader, start_timestamp)`:
the first item reads only a payload and is emitted at `start_timestamp`
(clean empty stream decodes to no items), then the remaining items follow
`decodeRest`. -/
def ItemDecoder.decodeBlock (stream : List Nat) (start_timestamp : Nat) :
    List Item × Bool :=
  match read_item stream with
  | none => ([], true)
  | some none => ([], false)
  | some (some (data, rest)) =>
    let p := ItemDecoder.decodeRest rest 0 start_timestamp
    (⟨start_timestamp, data⟩ :: p.1, p.2)

theorem wrap_add_sub (d x : Int) (h1 : -(2 ^ 63) ≤ x) (h2 : x < 2 ^ 63) :
    wrapI64 (d + wrapI64 (x - d)) = x := by
  unfold wrapI64; omega

theorem wrap_ts (p ts : Nat) (hts : ts < 2 ^ 64) :
    wrapU64 ((p : Int) + wrapI64 ((ts : Int) - (p : Int))) = ts := by
  unfold wrapI64 wrapU64; omega

theorem read_item_encoded (data tail : List Nat) (hlen : data.length < 2 ^ 64) :
    read_item (varuint_encode data.length ++ (data ++ tail)) = some (some (data, tail)) := by
  unfold read_item
  rw [varuint_decode_encode _ hlen]
  show (if (data ++ tail).length < data.length then none
      else some (some ((data ++ tail).take data.length, (data ++ tail).drop data.length)))
    = some (some (data, tail))
  rw [if_neg (by simp only [List.length_append]; omega)]
  rw [List.take_left, List.drop_left]

theorem decodeRest_none (stream : List Nat) (cd : Int) (ct : Nat)
    (h : varint_signed_decode stream = none) :
    ItemDecoder.decodeRest stream cd ct = ([], false) := by
  unfold ItemDecoder.decodeRest
  simp only [ItemDecoder.decodeRestAux]
  rw [h]

theorem decodeRest_step (stream : List Nat) (cd : Int) (ct : Nat)
    (delta : Int) (rest1 data rest2 : List Nat)
    (h : varint_signed_decode stream = some (delta, rest1))
    (h2 : read_item rest1 = some (some (data, rest2))) :
    ItemDecoder.decodeRest stream cd ct =
      ((⟨wrapU64 ((ct : Int) + wrapI64 (cd + delta)), data⟩ : Item) ::
         (ItemDecoder.decodeRest rest2 (wrapI64 (cd + delta))
            (wrapU64 ((ct : Int) + wrapI64 (cd + delta)))).1,
       (ItemDecoder.decodeRest rest2 (wrapI64 (cd + delta))
          (wrapU64 ((ct : Int) + wrapI64 (cd + delta)))).2) := by
  unfold ItemDecoder.decodeRest
  simp only [ItemDecoder.decodeRestAux]
  split
  · rename_i hs
    rw [h] at hs
    cases hs
  · rename_i delta' rest1' hs
    rw [h] at hs
    injection hs with hs'
    rw [Prod.mk.injEq] at hs'
    obtain ⟨e1, e2⟩ := hs'
    subst e1
    subst e2
    split
    · rename_i hr
      rw [h2] at hr
      cases hr
    · rename_i hr
      rw [h2] at hr
      injection hr with hr'
      cases hr'
    · rename_i data' rest2' hr
      rw [h2] at hr
      injection hr with hr'
      injection hr' with hr''
      rw [Prod.mk.injEq] at hr''
      obtain ⟨e3, e4⟩ := hr''
      subst e3
      subst e4
      have hl1 := varint_signed_decode_consume stream delta rest1 h
      have hl2 := read_item_consume rest1 data rest2 h2
      have hc := decodeRestAux_congr stream.length (rest2.length + 1) rest2
        (wrapI64 (cd + delta)) (wrapU64 ((ct : Int) + wrapI64 (cd + delta)))
        (by omega) (by omega)
      rw [hc]
      simp only [ItemDecoder.decodeRestAux]

theorem decodeRest_encodeList (xs : List Item) (p : Nat) (d : Int)
    (hp : p ≠ 0) (hp64 : p < 2 ^ 64)
    (hd1 : -(2 ^ 63) ≤ d) (hd2 : d < 2 ^ 63)
    (h0 : ∀ x ∈ xs, x.timestamp ≠ 0)
    (h64 : ∀ x ∈ xs, x.timestamp < 2 ^ 64)
    (hlen : ∀ x ∈ xs, x.data.length < 2 ^ 64) :
    ItemDecoder.decodeRest (ItemEncoder.encodeList p d xs) d p = (xs, false) := by
  induction xs generalizing p d with
  | nil =>
    apply decodeRest_none
    rfl
  | cons x rest ih =>
    obtain ⟨ts, data⟩ := x
    simp only [List.mem_cons, forall_eq_or_imp] at h0 h64 hlen
    obtain ⟨hx0, h0r⟩ := h0
    obtain ⟨hx64, h64r⟩ := h64
    obtain ⟨hxlen, hlenr⟩ := hlen
    simp only [ItemEncoder.encodeList]
    rw [if_neg hp]
    simp only [List.append_assoc]
    have hsig := varint_signed_decode_encode
      (wrapI64 (wrapI64 ((ts : Int) - (p : Int)) - d))
      (wrapI64_lb _) (wrapI64_ub _)
      (varuint_encode data.length ++ (data ++ ItemEncoder.encodeList ts
        (wrapI64 ((ts : Int) - (p : Int))) rest))
    have hri := read_item_encoded data
      (ItemEncoder.encodeList ts (wrapI64 ((ts : Int) - (p : Int))) rest) hxlen
    rw [decodeRest_step _ _ _ _ _ _ _ hsig hri]
    have hdd : wrapI64 (d + wrapI64 (wrapI64 ((ts : Int) - (p : Int)) - d))
        = wrapI64 ((ts : Int) - (p : Int)) :=
      wrap_add_sub d _ (wrapI64_lb _) (wrapI64_ub _)
    rw [hdd]
    have hts' : wrapU64 ((p : Int) + wrapI64 ((ts : Int) - (p : Int))) = ts :=
      wrap_ts p ts hx64
    rw [hts']
    rw [ih ts (wrapI64 ((ts : Int) - (p : Int))) hx0 hx64
      (wrapI64_lb _) (wrapI64_ub _) h0r h64r hlenr]

theorem decodeBlock_encodeItems (x : Item) (xs : List Item)
    (h0 : ∀ y ∈ x :: xs, y.timestamp ≠ 0)
    (h64 : ∀ y ∈ x :: xs, y.timestamp < 2 ^ 64)
    (hlen : ∀ y ∈ x :: xs, y.data.length < 2 ^ 64) :
    ItemDecoder.decodeBlock (encodeItems (x :: xs)) x.timestamp = (x :: xs, false) := by
  obtain ⟨ts, data⟩ := x
  simp only [List.mem_cons, forall_eq_or_imp] at h0 h64 hlen
  obtain ⟨hx0, h0r⟩ := h0
  obtain ⟨hx64, h64r⟩ := h64
  obtain ⟨hxlen, hlenr⟩ := hlen
  unfold encodeItems
  rw [show ItemEncoder.encodeList 0 0 (⟨ts, data⟩ :: xs)
      = varuint_encode data.length ++ (data ++ ItemEncoder.encodeList ts 0 xs) from by
    simp only [ItemEncoder.encodeList, if_true]
    simp only [List.append_assoc]]
  have hri := read_item_encoded data (ItemEncoder.encodeList ts 0 xs) hxlen
  unfold ItemDecoder.decodeBlock
  split
  · rename_i heq
    rw [hri] at heq
    cases heq
  · rename_i heq
    rw [hri] at heq
    injection heq with heq'
    cases heq'
  · rename_i data' rest' heq
    rw [hri] at heq
    injection heq with heq'
    injection heq' with heq''
    rw [Prod.mk.injEq] at heq''
    obtain ⟨e1, e2⟩ := heq''
    subst e1
    subst e2
    rw [decodeRest_encodeList xs ts 0 hx0 hx64 (by norm_num) (by norm_num) h0r h64r hlenr]

/-! ### Data model (`src/server/src/db/mod.rs`) -/

/-- `NsidCounts`: per-collection aggregate counters.  The `u128` counters
are modeled as unbounded `Nat`: the 2^128 wrap-around point is unreachable
by any sequence of single increments a process can perform. -/
structure NsidCounts where
  count : Nat
  deleted_count : Nat
  last_seen : Nat
deriving DecidableEq, Repr

/-- `NsidCounts::default()`. -/
def NsidCounts.zero : NsidCounts := ⟨0, 0, 0⟩

/-- `NsidHit`: the per-event payload. -/
structure NsidHit where
  deleted : Bool
deriving DecidableEq, Repr

/-- The rkyv serialization of `NsidHit`: one byte holding the bool.  The
codec treats payloads as opaque length-prefixed blobs, so only injectivity
and determinism of the serializer matter. -/
def NsidHit.toBytes (h : NsidHit) : List Nat := [if h.deleted then 1 else 0]

/-- `EventRecord` (`src/server/src/db/mod.rs` lines 43-48). -/
structure EventRecord where
  nsid : String
  timestamp : Nat
  deleted : Bool
deriving DecidableEq, Repr

/-- `Item::new(event.timestamp, &NsidHit { deleted: event.deleted })`. -/
def EventRecord.toItem (e : EventRecord) : Item :=
  ⟨e.timestamp, (NsidHit.mk e.deleted).toBytes⟩

/-! ### Firehose adapter (`src/server/src/jetstream.rs`, `src/server/src/db/mod.rs`) -/

/-- `JetstreamEventCommit`: commit operation details. -/
structure JetstreamEventCommit where
  rev : String
  operation : String
  collection : String
  rkey : String
  cid : String
  record : String
deriving DecidableEq, Repr

/-- `JetstreamEventDelete`: delete operation details. -/
structure JetstreamEventDelete where
  rev : String
  operation : String
  collection : String
  rkey : String
deriving DecidableEq, Repr

/-- `JetstreamEvent`: the four upstream variants.  The JSON payloads of
`Identity` and `Account` are opaque strings here. -/
inductive JetstreamEvent where
  | Commit (did : String) (time_us : Nat) (kind : String) (commit : JetstreamEventCommit)
  | Delete (did : String) (time_us : Nat) (kind : String) (commit : JetstreamEventDelete)
  | Identity (did : String) (time_us : Nat) (kind : String) (identity : String)
  | Account (did : String) (time_us : Nat) (kind : String) (identity : String)
deriving DecidableEq, Repr

/-- `EventRecord::from_jetstream` (`src/server/src/db/mod.rs` lines 50-70):
`Commit` and `Delete` map to a record carrying the commit collection, the
microsecond timestamp integer-divided by 1,000,000, and the deletion flag;
every other variant maps to `None`. -/
def EventRecord.from_jetstream : JetstreamEvent → Option EventRecord
  | .Commit _ time_us _ commit => some ⟨commit.collection, time_us / 1000000, false⟩
  | .Delete _ time_us _ commit => some ⟨commit.collection, time_us / 1000000, true⟩
  | .Identity _ _ _ _ => none
  | .Account _ _ _ _ => none

/-! ### Collection handle and coordinator (`src/server/src/db/mod.rs`) -/

/-- Insert into a sorted association list ordered by byte-lexicographic
keys: the LSM partition's `insert` (an equal key is overwritten). -/
def treeInsert (k v : List Nat) :
    List (List Nat × List Nat) → List (List Nat × List Nat)
  | [] => [(k, v)]
  | (k2, v2) :: rest =>
    if lexLt k k2 then (k, v) :: (k2, v2) :: rest
    else if k = k2 then (k, v) :: rest
    else (k2, v2) :: treeInsert k v rest

/-- `LexiconHandle` (`src/server/src/db/mod.rs` lines 266-310): the FIFO
staging queue, the LSM partition as a sorted association list of
(key, value) byte strings, and the adaptive block size (initially 1000).
The events-per-second tracker and the last-insert instant are wall-clock
state; `Db.sync` takes staleness as an oracle parameter instead. -/
structure LexiconHandle where
  buf : List EventRecord
  tree : List (List Nat × List Nat)
  block_size : Nat
deriving DecidableEq, Repr

/-- `LexiconHandle::new`. -/
def LexiconHandle.new : LexiconHandle := ⟨[], [], 1000⟩

/-- `LexiconHandle::item_count`. -/
def LexiconHandle.item_count (h : LexiconHandle) : Nat := h.buf.length

/-- `LexiconHandle::insert`: push the event onto the staging queue.  (The
rate-tracker-driven `block_size` store depends on the wall clock and is
carried unchanged here.) -/
def LexiconHandle.insert (h : LexiconHandle) (e : EventRecord) : LexiconHandle :=
  { h with buf := h.buf ++ [e] }

/-- `LexiconHandle::sync` (`src/server/src/db/mod.rs` lines 312-341): pop
every staged event in FIFO order through one `ItemEncoder`; if at least one
event was staged, clear the queue and insert a single block keyed by the
varint-encoded timestamps of the first and last drained events. -/
def LexiconHandle.sync (h : LexiconHandle) : LexiconHandle :=
  match h.buf with
  | [] => h
  | e :: es =>
    { h with
      buf := [],
      tree := treeInsert
        (varuint_encode e.timestamp ++
          varuint_encode (((e :: es).getLast (List.cons_ne_nil e es)).timestamp))
        (encodeItems ((e :: es).map EventRecord.toItem))
        h.tree }

/-- Association-list lookup for the handle map. -/
def lookupHandle (hits : List (String × LexiconHandle)) (nsid : String) :
    Option LexiconHandle :=
  match hits with
  | [] => none
  | (n, h) :: rest => if n = nsid then some h else lookupHandle rest nsid

/-- `Db::run_in_nsid_tree`: update the collection's handle, creating it with
`LexiconHandle::new` on first use. -/
def updateHandle (hits : List (String × LexiconHandle)) (nsid : String)
    (f : LexiconHandle → LexiconHandle) : List (String × LexiconHandle) :=
  match hits with
  | [] => [(nsid, f LexiconHandle.new)]
  | (n, h) :: rest =>
    if n = nsid then (n, f h) :: rest else (n, h) :: updateHandle rest nsid f

/-- `Db` (`src/server/src/db/mod.rs` lines 347-375): the handle map (in
insertion order) and the `_counts` partition, modeled as a total map with
the `NsidCounts::default()` fallback that `get_count` applies.
`min_block_size = 512`. -/
structure Db where
  hits : List (String × LexiconHandle)
  counts : String → NsidCounts

/-- `Db::new` over an empty data directory. -/
def Db.new : Db := ⟨[], fun _ => NsidCounts.zero⟩

/-- `min_block_size` as set in `Db::new`. -/
def Db.min_block_size : Nat := 512

/-- `Db::get_count`. -/
def Db.get_count (db : Db) (nsid : String) : NsidCounts := db.counts nsid

/-- `Db::record_event` (`src/server/src/db/mod.rs` lines 436-459): queue the
event into its collection handle, then read-modify-write the counts record:
`last_seen` becomes the event timestamp and the matching counter is
incremented. -/
def Db.record_event (db : Db) (e : EventRecord) : Db :=
  let hits2 := updateHandle db.hits e.nsid (fun h => h.insert e)
  let counts := db.counts e.nsid
  let counts2 : NsidCounts :=
    if e.deleted then
      { counts with last_seen := e.timestamp, deleted_count := counts.deleted_count + 1 }
    else
      { counts with last_seen := e.timestamp, count := counts.count + 1 }
  { hits := hits2, counts := fun n => if n = e.nsid then counts2 else db.counts n }

/-- The flush decision of `Db::sync` for one handle
(`src/server/src/db/mod.rs` lines 380-386): `count > 0 && (all ||
count > min_block_size.max(suggested_block_size) || is_too_old)`.
`stale` stands for `tree.last_insert().elapsed() > max_last_activity`. -/
def syncCondition (all stale : Bool) (h : LexiconHandle) : Prop :=
  0 < h.item_count ∧
    (all = true ∨ h.item_count > max Db.min_block_size h.block_size ∨ stale = true)

instance (all stale : Bool) (h : LexiconHandle) : Decidable (syncCondition all stale h) := by
  unfold syncCondition; infer_instance

/-- The work units `Db::sync` drains from one handle: `LexiconHandle::sync`
drains the whole staging queue as one unit when the flush condition holds,
and nothing otherwise. -/
def syncEmitted (all stale : Bool) (h : LexiconHandle) : List (List EventRecord) :=
  if syncCondition all stale h then [h.buf] else []

/-- `Db::sync` (`src/server/src/db/mod.rs` lines 377-389): for every handle
whose flush condition holds, run `LexiconHandle::sync`. -/
def Db.sync (db : Db) (all : Bool) (stale : String → Bool) : Db :=
  { db with
    hits := db.hits.map fun p =>
      if syncCondition all (stale p.1) p.2 then (p.1, p.2.sync) else p }

/-! ### Range reads (`Db::get_hits`, `src/server/src/db/mod.rs` lines 509-549) -/

/-- `std::ops::Bound<u64>`. -/
inductive Bound where
  | included (t : Nat)
  | excluded (t : Nat)
  | unbounded
deriving DecidableEq, Repr

/-- Membership of a block key in the varint-encoded byte range the LSM
`range` call scans, by lexicographic comparison. -/
def inByteRange (startB endB : Bound) (k : List Nat) : Bool :=
  (match startB with
   | .included t => !lexLt k (varuint_encode t)
   | .excluded t => lexLt (varuint_encode t) k
   | .unbounded => true) &&
  (match endB with
   | .included t => !lexLt (varuint_encode t) k
   | .excluded t => lexLt k (varuint_encode t)
   | .unbounded => true)

/-- The item-level `limit` computed from the end bound in `Db::get_hits`
(`Excluded` saturating-subtracts one; `Unbounded` is `u64::MAX`). -/
def boundLimit : Bound → Nat
  | .included e => e
  | .excluded e => e - 1
  | .unbounded => 2 ^ 64 - 1

/-- The `map_block` closure of `Db::get_hits`: read the block start
timestamp from the key, decode the block, and keep items while the
timestamp is at most `limit`.  A key that fails to parse yields an error
and no items. -/
def map_block (limit : Nat) (kv : List Nat × List Nat) : List Item :=
  match varuint_decode kv.1 with
  | none => []
  | some (start_timestamp, _) =>
    (ItemDecoder.decodeBlock kv.2 start_timestamp).1.takeWhile
      fun it => it.timestamp ≤ limit

/-- `Db::get_hits`: select the blocks whose keys fall in the encoded range,
in ascending key order, and concatenate each block's decoded,
limit-truncated items. -/
def Db.get_hits (db : Db) (nsid : String) (startB endB : Bound) : List Item :=
  match lookupHandle db.hits nsid with
  | none => []
  | some h =>
    ((h.tree.filter fun kv => inByteRange startB endB kv.1).map
      (map_block (boundLimit endB))).flatten

/-- `MAX_HITS` from `src/server/src/api.rs`: the `hits` handler caps the
`get_hits` stream with `.take(MAX_HITS)`. -/
def MAX_HITS : Nat := 100000

/-- All items stored in a partition, blocks concatenated in key order with
each block decoded from its key's start timestamp. -/
def flattenTree (tree : List (List Nat × List Nat)) : List Item :=
  (tree.map fun kv =>
    match varuint_decode kv.1 with
    | none => []
    | some (s, _) => (ItemDecoder.decodeBlock kv.2 s).1).flatten

/-! ### Newer collection handle (`src/server/src/db/handle.rs`) -/

/-- `Block { written, key, data }` (`src/server/src/db/handle.rs` lines 53-57). -/
structure Block where
  written : Nat
  key : List Nat
  data : List Nat
deriving DecidableEq, Repr

/-- `varints_unsigned_encoded` (`src/server/src/utils.rs` lines 80-88):
each value is varint-written into a buffer pre-sized with
`varint_unsigned_encoded_len`; by `varuint_encode_length` the writes fill
the buffer exactly, so the result is the concatenation of the encodings. -/
def varints_unsigned_encoded (values : List Nat) : List Nat :=
  (values.map varuint_encode).flatten

/-- `LexiconHandle::encode_block_from_items` (`src/server/src/db/handle.rs`
lines 252-290) with `Compression::None` (`put_raw_block` is the identity).
`none` is the error path: `InvalidInput` for `count = 0`, `InvalidData` when
fewer than `count` items were supplied; the final `WriteZero` branch is
unreachable because `written = count > 0` implies both timestamps were set. -/
def encode_block_from_items (items : List Item) (count : Nat) : Option Block :=
  if count = 0 then none
  else
    match items.take count with
    | [] => none
    | t :: rest =>
      if (t :: rest).length ≠ count then none
      else
        some { written := (t :: rest).length,
               key := varints_unsigned_encoded
                 [t.timestamp, ((t :: rest).getLast (List.cons_ne_nil t rest)).timestamp],
               data := encodeItems (t :: rest) }

/-- `Itertools::chunks(n)` as used by `compact`: consecutive runs of `n`
items, the last possibly shorter.  Fuel keeps the recursion structural;
`n = 0` is never used by the program. -/
def chunksOfAux {α : Type} : Nat → Nat → List α → List (List α)
  | 0, _, _ => []
  | _, _, [] => []
  | fuel + 1, n, x :: xs =>
    if n = 0 then []
    else (x :: xs).take n :: chunksOfAux fuel n ((x :: xs).drop n)

/-- Chunking with always-sufficient fuel (each step drops at least one
element). -/
def chunksOf {α : Type} (n : Nat) (xs : List α) : List (List α) :=
  chunksOfAux (xs.length + 1) n xs

theorem chunksOfAux_congr {α : Type} (f1 : Nat) : ∀ (f2 n : Nat) (xs : List α),
    xs.length < f1 → xs.length < f2 → 0 < n →
    chunksOfAux f1 n xs = chunksOfAux f2 n xs := by
  induction f1 with
  | zero => intro f2 n xs h1; omega
  | succ f ih =>
    intro f2 n xs h1 h2 hn
    cases f2 with
    | zero => omega
    | succ g =>
      cases xs with
      | nil => rfl
      | cons x rest =>
        simp only [chunksOfAux, if_neg (by omega : ¬ n = 0)]
        congr 1
        apply ih
        · simp only [List.length_drop]
          simp only [List.length_cons] at h1 ⊢
          omega
        · simp only [List.length_drop]
          simp only [List.length_cons] at h2 ⊢
          omega
        · exact hn

theorem chunksOf_nil {α : Type} (n : Nat) : chunksOf n ([] : List α) = [] := rfl

theorem chunksOf_cons {α : Type} (n : Nat) (x : α) (xs : List α) (hn : 0 < n) :
    chunksOf n (x :: xs) = (x :: xs).take n :: chunksOf n ((x :: xs).drop n) := by
  unfold chunksOf
  simp only [chunksOfAux, if_neg (by omega : ¬ n = 0)]
  congr 1
  apply chunksOfAux_congr
  · simp only [List.length_drop, List.length_cons]
    omega
  · simp only [List.length_drop]
    omega
  · exact hn

/-- `get_decoder_for` followed by `collect::<Result<Vec<_>, _>>`: decode a
whole block, `none` when the key fails to parse or the item stream ends in
an error. -/
def decode_block_checked (kv : List Nat × List Nat) : Option (List Item) :=
  match varuint_decode kv.1 with
  | none => none
  | some (start_timestamp, _) =>
    let p := ItemDecoder.decodeBlock kv.2 start_timestamp
    if p.2 then none else some p.1

/-- The `try_fold` in `compact` that decodes and concatenates every block in
range, aborting on the first failure. -/
def decodeBlocksAll : List (List Nat × List Nat) → Option (List Item)
  | [] => some []
  | kv :: rest =>
    match decode_block_checked kv with
    | none => none
    | some items =>
      match decodeBlocksAll rest with
      | none => none
      | some acc => some (items ++ acc)

/-- Resolution of the compaction start bound (`saturating_add` on `u64`). -/
def compactStartLimit : Bound → Nat
  | .included s => s
  | .excluded s => min (s + 1) (2 ^ 64 - 1)
  | .unbounded => 0

/-- Resolution of the compaction end bound (`saturating_sub` on `u64`). -/
def compactEndLimit : Bound → Nat
  | .included e => e
  | .excluded e => e - 1
  | .unbounded => 2 ^ 64 - 1

/-- Membership of a key in the end-exclusive compaction scan range
`start_key..end_key`. -/
def compactKeyInRange (startB endB : Bound) (k : List Nat) : Bool :=
  !lexLt k (varints_unsigned_encoded [compactStartLimit startB]) &&
    lexLt k (varints_unsigned_encoded [compactEndLimit endB])

/-- Insertion into a timestamp-sorted item list, for `sortItems`. -/
def insertSorted (a : Item) : List Item → List Item
  | [] => [a]
  | b :: bs => if a.timestamp ≤ b.timestamp then a :: b :: bs else b :: insertSorted a bs

/-- `all_items.sort_unstable_by_key(|item| item.timestamp)`, modeled as an
insertion sort on the timestamp key.  (`sort_unstable_by_key` does not
specify the relative order of equal keys, so any sorting function is a
faithful model; this one is structurally recursive and kernel-computable.) -/
def sortItems : List Item → List Item
  | [] => []
  | a :: as => insertSorted a (sortItems as)

/-- `LexiconHandle::compact` (`src/server/src/db/handle.rs` lines 171-250)
acting on the partition contents: materialize the blocks keyed in
`varuint(start_limit)..varuint(end_limit)`; if there are at least two,
decode them all, optionally sort the items by timestamp
(`sort_unstable_by_key`, modeled by `sortItems`), re-chunk into
`compact_to`-sized groups, re-encode each, then delete the input keys and
insert the new blocks.  A decode or encode failure leaves the tree
unchanged: the Rust function returns the error before touching the
partition. -/
def compact (tree : List (List Nat × List Nat)) (compact_to : Nat)
    (startB endB : Bound) (sort : Bool) : List (List Nat × List Nat) :=
  let blocks_to_compact := tree.filter fun kv => compactKeyInRange startB endB kv.1
  if blocks_to_compact.length < 2 then tree
  else
    match decodeBlocksAll blocks_to_compact with
    | none => tree
    | some all_items =>
      let sorted := if sort then sortItems all_items else all_items
      match (chunksOf compact_to sorted).mapM
          (fun c => encode_block_from_items c c.length) with
      | none => tree
      | some new_blocks =>
        new_blocks.foldl (fun t b => treeInsert b.key b.data t)
          (tree.filter fun kv => !compactKeyInRange startB endB kv.1)

/-! ### Claim C9: the firehose adapter -/

/-- **C9**: `EventRecord::from_jetstream` maps a `Commit` event to
`Some(EventRecord)` with the commit collection as nsid, `time_us /
1_000_000` as timestamp and `deleted = false`; maps `Delete` the same way
with `deleted = true`; and drops (`None`) the `Identity` and `Account`
variants. -/
theorem c9_from_jetstream_adapter (did : String) (time_us : Nat) (kind : String)
    (c : JetstreamEventCommit) (d : JetstreamEventDelete) (idp accp : String) :
    EventRecord.from_jetstream (.Commit did time_us kind c)
        = some ⟨c.collection, time_us / 1000000, false⟩ ∧
    EventRecord.from_jetstream (.Delete did time_us kind d)
        = some ⟨d.collection, time_us / 1000000, true⟩ ∧
    EventRecord.from_jetstream (.Identity did time_us kind idp) = none ∧
    EventRecord.from_jetstream (.Account did time_us kind accp) = none :=
  ⟨rfl, rfl, rfl, rfl⟩

/-! ### Claim C7: varint length and order -/

/-- **C7**: for every `u64` value the unsigned varint encoding occupies
between 1 and 9 bytes, the encoded byte length is monotone in the value,
and for `a < b` the encoding of `a` is lexicographically smaller than the
encoding of `b`, a property preserved when each encoding is followed by an
arbitrary suffix (composite sort keys). -/
theorem c7_varint_monotonicity (a b : Nat) (ha : a < 2 ^ 64) (hb : b < 2 ^ 64) :
    (1 ≤ (varuint_encode a).length ∧ (varuint_encode a).length ≤ 9) ∧
    (a ≤ b → (varuint_encode a).length ≤ (varuint_encode b).length) ∧
    (a < b → ∀ s t : List Nat,
      lexLt (varuint_encode a ++ s) (varuint_encode b ++ t) = true) := by
  refine ⟨?_, ?_, ?_⟩
  · rw [varuint_encode_length, varint_unsigned_encoded_len_eq a ha]
    exact ⟨rangedLen_pos a, rangedLen_le_nine a⟩
  · intro hab
    rw [varuint_encode_length, varuint_encode_length,
      varint_unsigned_encoded_len_eq a ha, varint_unsigned_encoded_len_eq b hb]
    exact rangedLen_mono a b hab
  · intro hab s t
    exact varuint_encode_lexLt a b ha hb hab s t

theorem c7_varint_monotonicity_witness :
    ((3 : Nat) < 2 ^ 64 ∧ (70000 : Nat) < 2 ^ 64) ∧
    ((1 ≤ (varuint_encode 3).length ∧ (varuint_encode 3).length ≤ 9) ∧
     ((3 : Nat) ≤ 70000 → (varuint_encode 3).length ≤ (varuint_encode 70000).length) ∧
     ((3 : Nat) < 70000 → ∀ s t : List Nat,
       lexLt (varuint_encode 3 ++ s) (varuint_encode 70000 ++ t) = true)) :=
  ⟨⟨by norm_num, by norm_num⟩,
    c7_varint_monotonicity 3 70000 (by norm_num) (by norm_num)⟩

/-! ### Claims C1 and C10: block codec round-trip -/

/-- **C1**, counterexample: the round-trip fails on the two-item sequence
`[(0, []), (5, [])]`.  The encoder detects the first item by the sentinel
test `prev_timestamp == 0`, so after an item with timestamp 0 the next item
is also written without a delta, and decoding stops with an
`expected data after delta` error after one item. -/
theorem c1_roundtrip_counterexample :
    ItemDecoder.decodeBlock (encodeItems [⟨0, []⟩, ⟨5, []⟩])
        (([⟨0, []⟩, ⟨5, []⟩] : List Item).head (by decide)).timestamp
      ≠ ([⟨0, []⟩, ⟨5, []⟩], false) := by decide

/-- **C1** (amended): for every non-empty item sequence whose timestamps
are all nonzero (and in `u64` range, with `usize` payload lengths),
encoding with the block codec and decoding the produced bytes with the
first item's timestamp as `start_ts` yields exactly the original sequence,
with no decode error. -/
theorem c1_block_roundtrip (x : Item) (xs : List Item)
    (h0 : ∀ y ∈ x :: xs, y.timestamp ≠ 0)
    (h64 : ∀ y ∈ x :: xs, y.timestamp < 2 ^ 64)
    (hlen : ∀ y ∈ x :: xs, y.data.length < 2 ^ 64) :
    ItemDecoder.decodeBlock (encodeItems (x :: xs)) x.timestamp = (x :: xs, false) :=
  decodeBlock_encodeItems x xs h0 h64 hlen

theorem c1_block_roundtrip_witness :
    ((∀ y ∈ [(⟨1000, [1]⟩ : Item), ⟨1010, [0]⟩, ⟨1015, [1]⟩], y.timestamp ≠ 0) ∧
     (∀ y ∈ [(⟨1000, [1]⟩ : Item), ⟨1010, [0]⟩, ⟨1015, [1]⟩], y.timestamp < 2 ^ 64) ∧
     (∀ y ∈ [(⟨1000, [1]⟩ : Item), ⟨1010, [0]⟩, ⟨1015, [1]⟩], y.data.length < 2 ^ 64)) ∧
    ItemDecoder.decodeBlock
        (encodeItems [⟨1000, [1]⟩, ⟨1010, [0]⟩, ⟨1015, [1]⟩]) 1000
      = ([⟨1000, [1]⟩, ⟨1010, [0]⟩, ⟨1015, [1]⟩], false) :=
  ⟨⟨by decide, by decide, by decide⟩,
    c1_block_roundtrip ⟨1000, [1]⟩ [⟨1010, [0]⟩, ⟨1015, [1]⟩]
      (by decide) (by decide) (by decide)⟩

/-- The byte group the encoder writes for one item after the first: exactly
one signed delta-of-delta varint, then the length varint, then the payload. -/
def deltaChunk (prev_timestamp : Nat) (prev_delta : Int) (it : Item) : List Nat :=
  varint_signed_encode
      (wrapI64 (wrapI64 ((it.timestamp : Int) - (prev_timestamp : Int)) - prev_delta)) ++
    varuint_encode it.data.length ++ it.data

/-- The per-item groups for a tail of items, threading the delta state the
way the encoder does. -/
def deltaChunks (prev_timestamp : Nat) (prev_delta : Int) : List Item → List (List Nat)
  | [] => []
  | it :: rest =>
    deltaChunk prev_timestamp prev_delta it ::
      deltaChunks it.timestamp (wrapI64 ((it.timestamp : Int) - (prev_timestamp : Int))) rest

theorem encodeList_eq_chunks (xs : List Item) (p : Nat) (d : Int) (hp : p ≠ 0)
    (h0 : ∀ x ∈ xs, x.timestamp ≠ 0) :
    ItemEncoder.encodeList p d xs = (deltaChunks p d xs).flatten := by
  induction xs generalizing p d with
  | nil => rfl
  | cons x rest ih =>
    simp only [List.mem_cons, forall_eq_or_imp] at h0
    obtain ⟨hx0, h0r⟩ := h0
    simp only [ItemEncoder.encodeList, deltaChunks, deltaChunk, List.flatten_cons]
    rw [if_neg hp]
    rw [ih x.timestamp (wrapI64 ((x.timestamp : Int) - (p : Int))) hx0 h0r]

/-- **C10**: for a non-empty item sequence with all timestamps nonzero (and
in `u64` range), the encoder writes the first item's length-prefixed
payload followed by exactly one signed delta-of-delta varint, one length
varint and the payload per further item, and the encode/decode round-trip
with the first item's timestamp as `start_ts` reproduces the sequence
exactly.  The nonzero precondition matters: the encoder detects the first
item by the sentinel `prev_timestamp == 0`, so an item with timestamp 0
makes the item after it be encoded without a delta
(see `c1_roundtrip_counterexample`). -/
theorem c10_delta_structure_and_roundtrip (x : Item) (xs : List Item)
    (h0 : ∀ y ∈ x :: xs, y.timestamp ≠ 0)
    (h64 : ∀ y ∈ x :: xs, y.timestamp < 2 ^ 64)
    (hlen : ∀ y ∈ x :: xs, y.data.length < 2 ^ 64) :
    encodeItems (x :: xs)
        = varuint_encode x.data.length ++ x.data ++ (deltaChunks x.timestamp 0 xs).flatten ∧
    ItemDecoder.decodeBlock (encodeItems (x :: xs)) x.timestamp = (x :: xs, false) := by
  constructor
  · simp only [List.mem_cons, forall_eq_or_imp] at h0
    obtain ⟨hx0, h0r⟩ := h0
    unfold encodeItems
    simp only [ItemEncoder.encodeList, if_true]
    rw [encodeList_eq_chunks xs x.timestamp 0 hx0 h0r]
  · exact decodeBlock_encodeItems x xs h0 h64 hlen

theorem c10_delta_structure_and_roundtrip_witness :
    ((∀ y ∈ [(⟨2000, [0]⟩ : Item), ⟨2005, [1]⟩], y.timestamp ≠ 0) ∧
     (∀ y ∈ [(⟨2000, [0]⟩ : Item), ⟨2005, [1]⟩], y.timestamp < 2 ^ 64) ∧
     (∀ y ∈ [(⟨2000, [0]⟩ : Item), ⟨2005, [1]⟩], y.data.length < 2 ^ 64)) ∧
    (encodeItems [⟨2000, [0]⟩, ⟨2005, [1]⟩]
        = varuint_encode 1 ++ [0] ++ (deltaChunks 2000 0 [⟨2005, [1]⟩]).flatten ∧
     ItemDecoder.decodeBlock (encodeItems [⟨2000, [0]⟩, ⟨2005, [1]⟩]) 2000
        = ([⟨2000, [0]⟩, ⟨2005, [1]⟩], false)) :=
  ⟨⟨by decide, by decide, by decide⟩,
    c10_delta_structure_and_roundtrip ⟨2000, [0]⟩ [⟨2005, [1]⟩]
      (by decide) (by decide) (by decide)⟩

/-! ### Claim C4: counts correctness -/

theorem getLast?_cons {α : Type} (a : α) (l : List α) :
    (a :: l).getLast? = some (match l.getLast? with | some x => x | none => a) := by
  induction l generalizing a with
  | nil => rfl
  | cons b rest ih =>
    rw [List.getLast?_cons_cons, ih b]

theorem record_event_fold (es : List EventRecord) (db : Db) (n : String) :
    (((es.foldl Db.record_event db).counts n).count
        = (db.counts n).count + (es.filter fun e => decide (e.nsid = n) && !e.deleted).length) ∧
    (((es.foldl Db.record_event db).counts n).deleted_count
        = (db.counts n).deleted_count + (es.filter fun e => decide (e.nsid = n) && e.deleted).length) ∧
    (((es.foldl Db.record_event db).counts n).last_seen
        = (((es.filter fun e => decide (e.nsid = n)).getLast?.map
            EventRecord.timestamp).getD (db.counts n).last_seen)) := by
  induction es generalizing db with
  | nil => exact ⟨rfl, rfl, rfl⟩
  | cons e rest ih =>
    simp only [List.foldl_cons]
    obtain ⟨ih1, ih2, ih3⟩ := ih (Db.record_event db e)
    have hbase : (Db.record_event db e).counts n
        = if n = e.nsid then
            (if e.deleted then
              NsidCounts.mk (db.counts e.nsid).count
                ((db.counts e.nsid).deleted_count + 1) e.timestamp
            else
              NsidCounts.mk ((db.counts e.nsid).count + 1)
                (db.counts e.nsid).deleted_count e.timestamp)
          else db.counts n := rfl
    by_cases hn : n = e.nsid
    · subst hn
      rw [if_pos rfl] at hbase
      have h3 : List.filter (fun x => decide (x.nsid = e.nsid)) (e :: rest)
          = e :: List.filter (fun x => decide (x.nsid = e.nsid)) rest := by
        simp [List.filter_cons]
      cases hde : e.deleted with
      | false =>
        rw [hde] at hbase
        rw [if_neg (by simp)] at hbase
        have h1 : List.filter (fun x => decide (x.nsid = e.nsid) && !x.deleted) (e :: rest)
            = e :: List.filter (fun x => decide (x.nsid = e.nsid) && !x.deleted) rest := by
          simp [List.filter_cons, hde]
        have h2 : List.filter (fun x => decide (x.nsid = e.nsid) && x.deleted) (e :: rest)
            = List.filter (fun x => decide (x.nsid = e.nsid) && x.deleted) rest := by
          simp [List.filter_cons, hde]
        refine ⟨?_, ?_, ?_⟩
        · rw [ih1, hbase, h1, List.length_cons]
          show (db.counts e.nsid).count + 1 + _ = _
          omega
        · rw [ih2, hbase, h2]
        · rw [ih3, hbase, h3, getLast?_cons]
          cases hl : (rest.filter fun x => decide (x.nsid = e.nsid)).getLast? with
          | none => simp
          | some x => simp
      | true =>
        rw [hde] at hbase
        rw [if_pos rfl] at hbase
        have h1 : List.filter (fun x => decide (x.nsid = e.nsid) && !x.deleted) (e :: rest)
            = List.filter (fun x => decide (x.nsid = e.nsid) && !x.deleted) rest := by
          simp [List.filter_cons, hde]
        have h2 : List.filter (fun x => decide (x.nsid = e.nsid) && x.deleted) (e :: rest)
            = e :: List.filter (fun x => decide (x.nsid = e.nsid) && x.deleted) rest := by
          simp [List.filter_cons, hde]
        refine ⟨?_, ?_, ?_⟩
        · rw [ih1, hbase, h1]
        · rw [ih2, hbase, h2, List.length_cons]
          show (db.counts e.nsid).deleted_count + 1 + _ = _
          omega
        · rw [ih3, hbase, h3, getLast?_cons]
          cases hl : (rest.filter fun x => decide (x.nsid = e.nsid)).getLast? with
          | none => simp
          | some x => simp
    · rw [if_neg hn] at hbase
      have hpe : (decide (e.nsid = n) : Bool) = false := by
        simp only [decide_eq_false_iff_not]
        exact fun hh => hn hh.symm
      have h1 : List.filter (fun x => decide (x.nsid = n) && !x.deleted) (e :: rest)
          = List.filter (fun x => decide (x.nsid = n) && !x.deleted) rest := by
        simp [List.filter_cons, hpe]
      have h2 : List.filter (fun x => decide (x.nsid = n) && x.deleted) (e :: rest)
          = List.filter (fun x => decide (x.nsid = n) && x.deleted) rest := by
        simp [List.filter_cons, hpe]
      have h3 : List.filter (fun x => decide (x.nsid = n)) (e :: rest)
          = List.filter (fun x => decide (x.nsid = n)) rest := by
        simp [List.filter_cons, hpe]
      exact ⟨by rw [ih1, hbase, h1], by rw [ih2, hbase, h2], by rw [ih3, hbase, h3]⟩

/-- **C4**: after any sequence of `record_event` calls starting from a fresh
database, for each nsid the stored `NsidCounts` satisfy: `count` is the
number of non-deleted events ingested for that nsid, `deleted_count` is the
number of deleted events ingested for that nsid, and `last_seen` is the
timestamp of the most recently ingested event for that nsid (when one
exists). -/
theorem c4_counts_correct (es : List EventRecord) (n : String) :
    (((es.foldl Db.record_event Db.new).get_count n).count
        = (es.filter fun e => decide (e.nsid = n) && !e.deleted).length) ∧
    (((es.foldl Db.record_event Db.new).get_count n).deleted_count
        = (es.filter fun e => decide (e.nsid = n) && e.deleted).length) ∧
    (∀ e : EventRecord, (es.filter fun x => decide (x.nsid = n)).getLast? = some e →
      ((es.foldl Db.record_event Db.new).get_count n).last_seen = e.timestamp) := by
  obtain ⟨h1, h2, h3⟩ := record_event_fold es Db.new n
  refine ⟨?_, ?_, ?_⟩
  · show ((es.foldl Db.record_event Db.new).counts n).count = _
    rw [h1]
    show 0 + _ = _
    rw [Nat.zero_add]
  · show ((es.foldl Db.record_event Db.new).counts n).deleted_count = _
    rw [h2]
    show 0 + _ = _
    rw [Nat.zero_add]
  · intro e he
    show ((es.foldl Db.record_event Db.new).counts n).last_seen = _
    rw [h3, he]
    rfl

theorem c4_counts_correct_witness :
    ((([⟨"a", 5, false⟩, ⟨"b", 7, true⟩, ⟨"a", 9, true⟩] :
        List EventRecord).foldl Db.record_event Db.new).get_count "a").count = 1 ∧
    ((([⟨"a", 5, false⟩, ⟨"b", 7, true⟩, ⟨"a", 9, true⟩] :
        List EventRecord).foldl Db.record_event Db.new).get_count "a").deleted_count = 1 ∧
    ((([⟨"a", 5, false⟩, ⟨"b", 7, true⟩, ⟨"a", 9, true⟩] :
        List EventRecord).foldl Db.record_event Db.new).get_count "a").last_seen = 9 := by
  have h := c4_counts_correct [⟨"a", 5, false⟩, ⟨"b", 7, true⟩, ⟨"a", 9, true⟩] "a"
  refine ⟨?_, ?_, ?_⟩
  · rw [h.1]; decide
  · rw [h.2.1]; decide
  · rw [h.2.2 ⟨"a", 9, true⟩ (by decide)]

/-! ### Claim C5: the flush policy -/

/-- Modelled from the spec: the flush policy exactly as §4.6.2 states it
(the claim's policy, for comparison with the code's `syncEmitted`): with
`count` staged items, emit `full_blocks = count / block_size` work units of
size `block_size`, and one additional unit of size
`remainder = count % block_size` only if `all || full_blocks == 0 ||
is_stale` — otherwise the remainder is held back. -/
def specEmitSizes (count block_size : Nat) (all stale : Bool) : List Nat :=
  let full_blocks := count / block_size
  let remainder := count % block_size
  List.replicate full_blocks block_size ++
    (if (all || decide (full_blocks = 0) || stale) && decide (remainder ≠ 0)
     then [remainder] else [])

theorem sync_eq (h : LexiconHandle) (e : EventRecord) (es : List EventRecord)
    (hbuf : h.buf = e :: es) :
    h.sync = { h with
               buf := [],
               tree := treeInsert
                 (varuint_encode e.timestamp ++
                   varuint_encode (((e :: es).getLast (List.cons_ne_nil e es)).timestamp))
                 (encodeItems ((e :: es).map EventRecord.toItem)) h.tree } := by
  unfold LexiconHandle.sync
  rw [hbuf]

/-- **C5** counterexample: five staged events with `block_size = 2` and
`all = true`: the claimed policy emits two full 2-item work units plus a
1-item remainder unit, but the handle drains everything in a single 5-item
unit. -/
theorem c5_flush_policy_counterexample :
    ((syncEmitted true false
        ⟨List.replicate 5 ⟨"a", 1, false⟩, [], 2⟩).map List.length) = [5] ∧
    specEmitSizes 5 2 true false = [2, 2, 1] ∧
    ([5] : List Nat) ≠ [2, 2, 1] := by decide

/-- **C5** (amended): for a staging buffer of events whose timestamps are
all nonzero and below 2^64, `Db::sync` performs no `full_blocks`/`remainder`
chunking: when the flush condition fails nothing is emitted, and when it
holds the handle drains its entire staging buffer as a single work unit —
the buffer is cleared (no remainder is held back) and exactly one block is
inserted, keyed by the varint timestamps of the first and last staged
events, whose body decodes back to all of the staged items. -/
theorem c5_sync_drains_whole_buffer (all stale : Bool) (h : LexiconHandle)
    (e : EventRecord) (es : List EventRecord) (hbuf : h.buf = e :: es)
    (hts : ∀ x ∈ e :: es, x.timestamp ≠ 0 ∧ x.timestamp < 2 ^ 64) :
    (¬ syncCondition all stale h → syncEmitted all stale h = []) ∧
    (syncCondition all stale h →
      syncEmitted all stale h = [e :: es] ∧
      h.sync.buf = [] ∧
      h.sync.tree = treeInsert
        (varuint_encode e.timestamp ++
          varuint_encode (((e :: es).getLast (List.cons_ne_nil e es)).timestamp))
        (encodeItems ((e :: es).map EventRecord.toItem)) h.tree ∧
      ItemDecoder.decodeBlock (encodeItems ((e :: es).map EventRecord.toItem))
        e.timestamp = ((e :: es).map EventRecord.toItem, false)) := by
  constructor
  · intro hc
    unfold syncEmitted
    rw [if_neg hc]
  · intro hc
    have hsync := sync_eq h e es hbuf
    refine ⟨?_, ?_, ?_, ?_⟩
    · unfold syncEmitted
      rw [if_pos hc, hbuf]
    · rw [hsync]
    · rw [hsync]
    · have hmem : ∀ y ∈ (e :: es).map EventRecord.toItem,
          y.timestamp ≠ 0 ∧ y.timestamp < 2 ^ 64 ∧ y.data.length < 2 ^ 64 := by
        intro y hy
        obtain ⟨x, hx, rfl⟩ := List.mem_map.1 hy
        refine ⟨(hts x hx).1, (hts x hx).2, ?_⟩
        show (1 : Nat) < 2 ^ 64
        norm_num
      exact decodeBlock_encodeItems (EventRecord.toItem e) (es.map EventRecord.toItem)
        (fun y hy => (hmem y hy).1) (fun y hy => (hmem y hy).2.1)
        (fun y hy => (hmem y hy).2.2)

theorem c5_sync_drains_whole_buffer_witness :
    (∀ x ∈ ([⟨"a", 5, false⟩, ⟨"a", 9, true⟩] : List EventRecord),
      x.timestamp ≠ 0 ∧ x.timestamp < 2 ^ 64) ∧
    syncCondition true false ⟨[⟨"a", 5, false⟩, ⟨"a", 9, true⟩], [], 1000⟩ ∧
    syncEmitted true false ⟨[⟨"a", 5, false⟩, ⟨"a", 9, true⟩], [], 1000⟩
      = [[⟨"a", 5, false⟩, ⟨"a", 9, true⟩]] ∧
    (LexiconHandle.sync ⟨[⟨"a", 5, false⟩, ⟨"a", 9, true⟩], [], 1000⟩).buf = [] := by
  have h := c5_sync_drains_whole_buffer true false
      ⟨[⟨"a", 5, false⟩, ⟨"a", 9, true⟩], [], 1000⟩ ⟨"a", 5, false⟩ [⟨"a", 9, true⟩]
      rfl (by decide)
  exact ⟨by decide, by decide, (h.2 (by decide)).1, (h.2 (by decide)).2.1⟩

/-! ### Claim C8: block keys -/

theorem encode_block_from_items_eq (t : Item) (rest : List Item) :
    encode_block_from_items (t :: rest) (t :: rest).length
      = some { written := (t :: rest).length,
               key := varuint_encode t.timestamp ++
                 varuint_encode (((t :: rest).getLast (List.cons_ne_nil t rest)).timestamp),
               data := encodeItems (t :: rest) } := by
  unfold encode_block_from_items
  rw [if_neg (by simp : ¬ (t :: rest).length = 0), List.take_length]
  show (if (t :: rest).length ≠ (t :: rest).length then none
    else some ({ written := (t :: rest).length,
                 key := varints_unsigned_encoded
                   [t.timestamp, ((t :: rest).getLast (List.cons_ne_nil t rest)).timestamp],
                 data := encodeItems (t :: rest) } : Block)) = _
  rw [if_neg (by simp)]
  simp [varints_unsigned_encoded]

/-- **C8**: every block writer keys its block by the concatenation of the
unsigned varints of (start_ts, end_ts), the timestamps of the first and last
items of the block body: `encode_block_from_items` (the compaction path)
produces exactly that key over body `encodeItems items`; splitting the key
back into two varints recovers the two timestamps; and the sync path keys
its single drained block by the first and last staged item timestamps over
the matching `encodeItems` body. -/
theorem c8_block_key_start_end (t : Item) (rest : List Item)
    (h : LexiconHandle) (e : EventRecord) (es : List EventRecord)
    (hbuf : h.buf = e :: es)
    (ht : t.timestamp < 2 ^ 64)
    (hl : ((t :: rest).getLast (List.cons_ne_nil t rest)).timestamp < 2 ^ 64) :
    encode_block_from_items (t :: rest) (t :: rest).length
      = some ({ written := (t :: rest).length,
                key := varuint_encode t.timestamp ++
                  varuint_encode (((t :: rest).getLast (List.cons_ne_nil t rest)).timestamp),
                data := encodeItems (t :: rest) } : Block) ∧
    varuint_decode (varuint_encode t.timestamp ++
        varuint_encode (((t :: rest).getLast (List.cons_ne_nil t rest)).timestamp))
      = some (t.timestamp,
          varuint_encode (((t :: rest).getLast (List.cons_ne_nil t rest)).timestamp)) ∧
    varuint_decode (varuint_encode (((t :: rest).getLast (List.cons_ne_nil t rest)).timestamp))
      = some (((t :: rest).getLast (List.cons_ne_nil t rest)).timestamp, []) ∧
    h.sync.tree = treeInsert
      (varuint_encode (EventRecord.toItem e).timestamp ++
        varuint_encode
          (EventRecord.toItem ((e :: es).getLast (List.cons_ne_nil e es))).timestamp)
      (encodeItems ((e :: es).map EventRecord.toItem)) h.tree := by
  refine ⟨encode_block_from_items_eq t rest, varuint_decode_encode t.timestamp ht _, ?_, ?_⟩
  · have := varuint_decode_encode
      (((t :: rest).getLast (List.cons_ne_nil t rest)).timestamp) hl []
    rw [List.append_nil] at this
    exact this
  · rw [sync_eq h e es hbuf]
    rfl

theorem c8_block_key_start_end_witness :
    ((⟨5, [0]⟩ : Item).timestamp < 2 ^ 64) ∧
    encode_block_from_items [(⟨5, [0]⟩ : Item), ⟨9, [1]⟩]
        [(⟨5, [0]⟩ : Item), ⟨9, [1]⟩].length
      = some ({ written := 2, key := varuint_encode 5 ++ varuint_encode 9,
                data := encodeItems [⟨5, [0]⟩, ⟨9, [1]⟩] } : Block) ∧
    varuint_decode (varuint_encode 5 ++ varuint_encode 9) = some (5, varuint_encode 9) ∧
    (LexiconHandle.sync ⟨[⟨"a", 5, false⟩, ⟨"a", 9, true⟩], [], 1000⟩).tree
      = treeInsert (varuint_encode 5 ++ varuint_encode 9)
          (encodeItems [⟨5, [0]⟩, ⟨9, [1]⟩]) [] := by
  have h := c8_block_key_start_end ⟨5, [0]⟩ [⟨9, [1]⟩]
      ⟨[⟨"a", 5, false⟩, ⟨"a", 9, true⟩], [], 1000⟩ ⟨"a", 5, false⟩ [⟨"a", 9, true⟩]
      rfl (by decide) (by decide)
  exact ⟨by decide, h.1, h.2.1, h.2.2.2⟩

/-! ### Claim C2: range bounds of `get_hits` -/

theorem mem_map_block_le (limit : Nat) (kv : List Nat × List Nat) (it : Item)
    (h : it ∈ map_block limit kv) : it.timestamp ≤ limit := by
  unfold map_block at h
  rcases hdec : varuint_decode kv.1 with _ | ⟨st, r⟩
  · rw [hdec] at h
    replace h : it ∈ ([] : List Item) := h
    cases h
  · rw [hdec] at h
    replace h : it ∈ (ItemDecoder.decodeBlock kv.2 st).1.takeWhile
        (fun x => decide (x.timestamp ≤ limit)) := h
    have hp := List.mem_takeWhile_imp h
    exact of_decide_eq_true hp

set_option maxRecDepth 10000 in
/-- **C2** counterexample, refuting two conjuncts of the claim.
Lower bound: ingesting timestamps 10 then 1 (out of order) and syncing
produces a single block whose key spans (10, 1); `get_hits` over the closed
range [5, 20] selects that block by key and returns the timestamp-1 item,
violating `a ≤ ts`.  Emission order: syncing after each of the same two
events produces two blocks, and `get_hits` walks them in ascending key
order, returning the items as [1, 10] — not in the order [10, 1] in which
they were emitted. -/
theorem c2_range_bounds_counterexample :
    ((⟨1, [0]⟩ : Item) ∈
      (((Db.new.record_event ⟨"a", 10, false⟩).record_event ⟨"a", 1, false⟩).sync true
        (fun _ => false)).get_hits "a" (.included 5) (.included 20) ∧
     ¬ (5 : Nat) ≤ (⟨1, [0]⟩ : Item).timestamp) ∧
    (((((Db.new.record_event ⟨"a", 10, false⟩).sync true (fun _ => false)).record_event
          ⟨"a", 1, false⟩).sync true (fun _ => false)).get_hits "a" Bound.unbounded
            Bound.unbounded
        = [⟨1, [0]⟩, ⟨10, [0]⟩] ∧
     ((((Db.new.record_event ⟨"a", 10, false⟩).sync true (fun _ => false)).record_event
          ⟨"a", 1, false⟩).sync true (fun _ => false)).get_hits "a" Bound.unbounded
            Bound.unbounded
        ≠ ([⟨"a", 10, false⟩, ⟨"a", 1, false⟩] : List EventRecord).map
            EventRecord.toItem) := by decide

/-- **C2** (amended): `get_hits` over a closed range [a, b] enforces the
upper bound item-wise — every returned item has timestamp at most `b` — and
a `take max` cap yields at most `max` items; the lower bound `a` is applied
only at block-key granularity, so items with timestamp below `a` can be
returned (see the counterexample). -/
theorem c2_range_upper_bound_and_cap (db : Db) (nsid : String) (a b m : Nat) :
    (∀ it ∈ db.get_hits nsid (.included a) (.included b), it.timestamp ≤ b) ∧
    ((db.get_hits nsid (.included a) (.included b)).take m).length ≤ m := by
  constructor
  · intro it hit
    unfold Db.get_hits at hit
    rcases hl : lookupHandle db.hits nsid with _ | h
    · rw [hl] at hit
      replace hit : it ∈ ([] : List Item) := hit
      cases hit
    · rw [hl] at hit
      replace hit : it ∈ ((h.tree.filter fun kv =>
          inByteRange (.included a) (.included b) kv.1).map
            (map_block (boundLimit (.included b)))).flatten := hit
      rw [List.mem_flatten] at hit
      obtain ⟨l, hlmem, hitl⟩ := hit
      rw [List.mem_map] at hlmem
      obtain ⟨kv, hkv, rfl⟩ := hlmem
      exact mem_map_block_le _ kv it hitl
  · simp [List.length_take]

/-! ### Claim C3: behaviour under the item cap -/

theorem takeWhile_of_all {α : Type} (p : α → Bool) (l : List α)
    (h : ∀ a ∈ l, p a = true) : l.takeWhile p = l := by
  induction l with
  | nil => rfl
  | cons x xs ih =>
    rw [List.takeWhile_cons, if_pos (h x (List.mem_cons_self x xs))]
    rw [ih (fun a ha => h a (List.mem_cons_of_mem x ha))]

theorem map_block_decoded (limit : Nat) (k v : List Nat) (st : Nat) (r : List Nat)
    (hk : varuint_decode k = some (st, r)) :
    map_block limit (k, v) = (ItemDecoder.decodeBlock v st).1.takeWhile
      (fun it => decide (it.timestamp ≤ limit)) := by
  unfold map_block
  rw [show ((k, v).1 : List Nat) = k from rfl, hk]

/-- Reading everything back from a database holding one collection whose
partition has a single block of well-formed items. -/
theorem get_hits_unbounded_single (n : String) (a b : Nat) (x : Item) (xs : List Item)
    (ha : a < 2 ^ 64) (hstart : x.timestamp = a)
    (h0 : ∀ y ∈ x :: xs, y.timestamp ≠ 0) (h64 : ∀ y ∈ x :: xs, y.timestamp < 2 ^ 64)
    (hdata : ∀ y ∈ x :: xs, y.data.length < 2 ^ 64)
    (c : String → NsidCounts) (hb : List EventRecord) (bs : Nat) :
    Db.get_hits
      ⟨[(n, ⟨hb, [(varuint_encode a ++ varuint_encode b, encodeItems (x :: xs))], bs⟩)], c⟩
      n .unbounded .unbounded = x :: xs := by
  unfold Db.get_hits
  have hlook : lookupHandle
      [(n, (⟨hb, [(varuint_encode a ++ varuint_encode b, encodeItems (x :: xs))], bs⟩ :
        LexiconHandle))] n
      = some (⟨hb, [(varuint_encode a ++ varuint_encode b, encodeItems (x :: xs))], bs⟩ :
        LexiconHandle) := by
    show (if n = n then some (⟨hb,
        [(varuint_encode a ++ varuint_encode b, encodeItems (x :: xs))], bs⟩ :
          LexiconHandle) else lookupHandle [] n) = _
    rw [if_pos rfl]
  rw [show (⟨[(n, ⟨hb, [(varuint_encode a ++ varuint_encode b, encodeItems (x :: xs))],
      bs⟩)], c⟩ : Db).hits
      = [(n, (⟨hb, [(varuint_encode a ++ varuint_encode b, encodeItems (x :: xs))], bs⟩ :
          LexiconHandle))] from rfl]
  rw [hlook]
  show ((([(varuint_encode a ++ varuint_encode b, encodeItems (x :: xs))] :
      List (List Nat × List Nat)).filter fun kv =>
        inByteRange Bound.unbounded Bound.unbounded kv.1).map
          (map_block (boundLimit Bound.unbounded))).flatten = x :: xs
  have hfilter : (([(varuint_encode a ++ varuint_encode b, encodeItems (x :: xs))] :
      List (List Nat × List Nat)).filter fun kv =>
        inByteRange Bound.unbounded Bound.unbounded kv.1)
      = [(varuint_encode a ++ varuint_encode b, encodeItems (x :: xs))] := by
    simp [inByteRange]
  rw [hfilter]
  simp only [List.map_cons, List.map_nil]
  rw [map_block_decoded (boundLimit Bound.unbounded) _ _ a (varuint_encode b)
    (varuint_decode_encode a ha (varuint_encode b))]
  simp only [List.flatten_cons, List.flatten_nil, List.append_nil]
  rw [← hstart]
  rw [decodeBlock_encodeItems x xs h0 h64 hdata]
  rw [takeWhile_of_all _ _ (fun y hy => decide_eq_true
    (show y.timestamp ≤ boundLimit Bound.unbounded from by
      have := h64 y hy
      show y.timestamp ≤ 2 ^ 64 - 1
      omega))]

theorem foldl_record_hits (es : List EventRecord) (n : String) (buf : List EventRecord)
    (t : List (List Nat × List Nat)) (bs : Nat) (c : String → NsidCounts)
    (hn : ∀ x ∈ es, x.nsid = n) :
    (es.foldl Db.record_event ⟨[(n, ⟨buf, t, bs⟩)], c⟩).hits
      = [(n, ⟨buf ++ es, t, bs⟩)] := by
  induction es generalizing buf c with
  | nil => simp
  | cons e rest ih =>
    simp only [List.foldl_cons]
    have he : e.nsid = n := hn e (List.mem_cons_self e rest)
    have hh : (Db.record_event ⟨[(n, ⟨buf, t, bs⟩)], c⟩ e).hits
        = [(n, ⟨buf ++ [e], t, bs⟩)] := by
      show updateHandle [(n, ⟨buf, t, bs⟩)] e.nsid (fun h => h.insert e) = _
      simp [updateHandle, he, LexiconHandle.insert]
    have heta : Db.record_event ⟨[(n, ⟨buf, t, bs⟩)], c⟩ e
        = ⟨[(n, ⟨buf ++ [e], t, bs⟩)],
           (Db.record_event ⟨[(n, ⟨buf, t, bs⟩)], c⟩ e).counts⟩ := by
      rw [← hh]
    rw [heta, ih (buf ++ [e]) _ (fun x hx => hn x (List.mem_cons_of_mem e hx))]
    simp

set_option maxRecDepth 10000 in
/-- **C3** counterexample: after ingesting four events with timestamps
1, 2, 3, 4 for collection "c" and `sync(all=true)`, an unbounded `get_hits`
capped to 2 items returns the two OLDEST items (timestamps 1 and 2), none of
which lie in the most recent half: blocks are walked in forward key order,
not reverse. -/
theorem c3_cap_serves_oldest_counterexample :
    ((((((Db.new.record_event ⟨"c", 1, false⟩).record_event
          ⟨"c", 2, false⟩).record_event ⟨"c", 3, false⟩).record_event
            ⟨"c", 4, false⟩).sync true (fun _ => false)).get_hits "c"
        .unbounded .unbounded).take 2
      = [⟨1, [0]⟩, ⟨2, [0]⟩] ∧
    (([⟨1, [0]⟩, ⟨2, [0]⟩] : List Item).filter fun it => decide (3 ≤ it.timestamp))
      = [] := by decide

/-- **C3** (amended): under the item cap the OLDEST matching items are
served: after ingesting a sequence of events — all for one collection, each
with a nonzero timestamp below 2^64 — into a fresh database and
`sync(all=true)`, an unbounded `get_hits` capped to `k` items returns
exactly the first `k` ingested events (in ingestion order), not the most
recent ones. -/
theorem c3_cap_serves_oldest (n : String) (e : EventRecord) (es : List EventRecord)
    (k : Nat) (hn : ∀ x ∈ e :: es, x.nsid = n)
    (hts : ∀ x ∈ e :: es, x.timestamp ≠ 0 ∧ x.timestamp < 2 ^ 64) :
    ((((e :: es).foldl Db.record_event Db.new).sync true (fun _ => false)).get_hits n
        .unbounded .unbounded).take k
      = ((e :: es).map EventRecord.toItem).take k := by
  have hen : e.nsid = n := hn e (List.mem_cons_self e es)
  have h1 : Db.record_event Db.new e
      = ⟨[(n, ⟨[e], [], 1000⟩)], (Db.record_event Db.new e).counts⟩ := by
    rw [← hen]
    rfl
  have hits0 : ((e :: es).foldl Db.record_event Db.new).hits
      = [(n, ⟨e :: es, [], 1000⟩)] := by
    rw [List.foldl_cons, h1,
      foldl_record_hits es n [e] [] 1000 _ (fun x hx => hn x (List.mem_cons_of_mem e hx))]
    simp
  have hc : syncCondition true false (⟨e :: es, [], 1000⟩ : LexiconHandle) := by
    constructor
    · show 0 < (e :: es).length
      simp
    · exact Or.inl rfl
  have hsynced : ((((e :: es).foldl Db.record_event Db.new).sync true
      (fun _ => false))).hits
      = [(n, LexiconHandle.sync ⟨e :: es, [], 1000⟩)] := by
    show ((e :: es).foldl Db.record_event Db.new).hits.map _ = _
    rw [hits0]
    simp only [List.map_cons, List.map_nil]
    rw [if_pos hc]
  have hs := sync_eq (⟨e :: es, [], 1000⟩ : LexiconHandle) e es rfl
  have hmem : ∀ y ∈ (e :: es).map EventRecord.toItem,
      y.timestamp ≠ 0 ∧ y.timestamp < 2 ^ 64 ∧ y.data.length < 2 ^ 64 := by
    intro y hy
    obtain ⟨z, hz, rfl⟩ := List.mem_map.1 hy
    refine ⟨(hts z hz).1, (hts z hz).2, ?_⟩
    show (1 : Nat) < 2 ^ 64
    norm_num
  have hgh := get_hits_unbounded_single n e.timestamp
      (((e :: es).getLast (List.cons_ne_nil e es)).timestamp)
      (EventRecord.toItem e) (es.map EventRecord.toItem)
      (hts e (List.mem_cons_self e es)).2 rfl
      (fun y hy => (hmem y hy).1) (fun y hy => (hmem y hy).2.1)
      (fun y hy => (hmem y hy).2.2)
      ((((e :: es).foldl Db.record_event Db.new).sync true (fun _ => false))).counts
      [] 1000
  have htree : LexiconHandle.sync ⟨e :: es, [], 1000⟩
      = ⟨[], [(varuint_encode e.timestamp ++
            varuint_encode (((e :: es).getLast (List.cons_ne_nil e es)).timestamp),
          encodeItems (e.toItem :: es.map EventRecord.toItem))], 1000⟩ := by
    rw [hs]
    rfl
  have hsynced2 : ((((e :: es).foldl Db.record_event Db.new).sync true
      (fun _ => false))).hits
      = [(n, ⟨[], [(varuint_encode e.timestamp ++
            varuint_encode (((e :: es).getLast (List.cons_ne_nil e es)).timestamp),
          encodeItems (e.toItem :: es.map EventRecord.toItem))], 1000⟩)] := by
    rw [hsynced, htree]
  have hdb : (((e :: es).foldl Db.record_event Db.new).sync true (fun _ => false))
      = ⟨[(n, ⟨[], [(varuint_encode e.timestamp ++
            varuint_encode (((e :: es).getLast (List.cons_ne_nil e es)).timestamp),
          encodeItems (e.toItem :: es.map EventRecord.toItem))], 1000⟩)],
         (((e :: es).foldl Db.record_event Db.new).sync true (fun _ => false)).counts⟩ := by
    rw [← hsynced2]
  rw [hdb, hgh]
  rfl

theorem c3_cap_serves_oldest_witness :
    (∀ x ∈ ([⟨"c", 1, false⟩, ⟨"c", 2, false⟩] : List EventRecord), x.nsid = "c") ∧
    (∀ x ∈ ([⟨"c", 1, false⟩, ⟨"c", 2, false⟩] : List EventRecord),
      x.timestamp ≠ 0 ∧ x.timestamp < 2 ^ 64) ∧
    (((([⟨"c", 1, false⟩, ⟨"c", 2, false⟩] : List EventRecord).foldl Db.record_event
        Db.new).sync true (fun _ => false)).get_hits "c" Bound.unbounded
          Bound.unbounded).take 1
      = (([⟨"c", 1, false⟩, ⟨"c", 2, false⟩] : List EventRecord).map
          EventRecord.toItem).take 1 :=
  ⟨by decide, by decide,
    c3_cap_serves_oldest "c" ⟨"c", 1, false⟩ [⟨"c", 2, false⟩] 1 (by decide) (by decide)⟩

/-! ### Claim C6: compaction idempotence -/

theorem lexLt_nil_right (xs : List Nat) : lexLt xs [] = false := by
  cases xs <;> rfl

theorem lexLt_cons_zero (hd : Nat) (r : List Nat) : lexLt (hd :: r) [0] = false := by
  rw [lexLt_cons_cons]
  by_cases h : 0 < hd
  · rw [if_neg (by omega : ¬ hd < 0), if_pos h]
  · rw [if_neg (by omega : ¬ hd < 0), if_neg h, lexLt_nil_right]

theorem compact_no_op (tree : List (List Nat × List Nat)) (compact_to : Nat)
    (startB endB : Bound) (sort : Bool)
    (h : (tree.filter fun kv => compactKeyInRange startB endB kv.1).length < 2) :
    compact tree compact_to startB endB sort = tree := by
  simp only [compact]
  rw [if_pos h]

theorem compact_success (tree : List (List Nat × List Nat)) (compact_to : Nat)
    (startB endB : Bound) (sort : Bool) (items sorted : List Item) (blocks : List Block)
    (hge : ¬ (tree.filter fun kv => compactKeyInRange startB endB kv.1).length < 2)
    (hdec : decodeBlocksAll (tree.filter fun kv => compactKeyInRange startB endB kv.1)
      = some items)
    (hsorted : (if sort then sortItems items else items) = sorted)
    (hmapM : (chunksOf compact_to sorted).mapM (fun c => encode_block_from_items c c.length)
      = some blocks) :
    compact tree compact_to startB endB sort
      = blocks.foldl (fun t b => treeInsert b.key b.data t)
          (tree.filter fun kv => !compactKeyInRange startB endB kv.1) := by
  simp only [compact]
  rw [if_neg hge]
  split
  · rename_i heq
    rw [hdec] at heq
    cases heq
  · rename_i all_items heq
    rw [hdec] at heq
    injection heq with heq'
    subst heq'
    split
    · rename_i heq2
      rw [hsorted, hmapM] at heq2
      cases heq2
    · rename_i new_blocks heq2
      rw [hsorted, hmapM] at heq2
      injection heq2 with heq2'
      subst heq2'
      rfl

theorem chunksOfAux_flatten {α : Type} (fuel : Nat) : ∀ (n : Nat) (xs : List α),
    0 < n → xs.length < fuel → (chunksOfAux fuel n xs).flatten = xs := by
  induction fuel with
  | zero =>
    intro n xs hn h
    omega
  | succ f ih =>
    intro n xs hn h
    cases xs with
    | nil => rfl
    | cons x rest =>
      simp only [chunksOfAux, if_neg (by omega : ¬ n = 0)]
      rw [List.flatten_cons]
      rw [ih n ((x :: rest).drop n) hn (by
        simp only [List.length_drop, List.length_cons]
        simp only [List.length_cons] at h
        omega)]
      exact List.take_append_drop n (x :: rest)

theorem chunksOf_flatten {α : Type} (n : Nat) (hn : 0 < n) (xs : List α) :
    (chunksOf n xs).flatten = xs :=
  chunksOfAux_flatten (xs.length + 1) n xs hn (Nat.lt_succ_self _)

theorem chunksOfAux_ne_nil {α : Type} (fuel : Nat) : ∀ (n : Nat) (xs c : List α),
    c ∈ chunksOfAux fuel n xs → c ≠ [] := by
  induction fuel with
  | zero =>
    intro n xs c hc
    rw [show chunksOfAux 0 n xs = ([] : List (List α)) from by cases xs <;> rfl] at hc
    cases hc
  | succ f ih =>
    intro n xs c hc
    cases xs with
    | nil => cases hc
    | cons x rest =>
      by_cases hn : n = 0
      · rw [show chunksOfAux (f + 1) n (x :: rest) = [] from by
          simp only [chunksOfAux, if_pos hn]] at hc
        cases hc
      · simp only [chunksOfAux, if_neg hn] at hc
        rw [List.mem_cons] at hc
        rcases hc with hc | hc
        · subst hc
          cases n with
          | zero => exact absurd rfl hn
          | succ m => simp
        · exact ih n _ c hc

theorem mem_of_mem_chunksOf {α : Type} (n : Nat) (hn : 0 < n) (xs c : List α)
    (hc : c ∈ chunksOf n xs) (a : α) (ha : a ∈ c) : a ∈ xs := by
  rw [← chunksOf_flatten n hn xs]
  exact List.mem_flatten_of_mem hc ha

/-- The block `encode_block_from_items` produces from a nonempty item list,
keyed by the first and last timestamps over the delta-encoded body. -/
def blockOf (c : List Item) : Block :=
  { written := c.length,
    key := varuint_encode ((c.head?.map Item.timestamp).getD 0) ++
      varuint_encode ((c.getLast?.map Item.timestamp).getD 0),
    data := encodeItems c }

theorem blockOf_key (t : Item) (rest : List Item) :
    (blockOf (t :: rest)).key
      = varuint_encode t.timestamp ++
        varuint_encode (((t :: rest).getLast (List.cons_ne_nil t rest)).timestamp) := by
  unfold blockOf
  rw [List.getLast?_eq_getLast (t :: rest) (List.cons_ne_nil t rest)]
  rfl

theorem blockOf_data (c : List Item) : (blockOf c).data = encodeItems c := rfl

theorem encode_block_blockOf (t : Item) (rest : List Item) :
    encode_block_from_items (t :: rest) (t :: rest).length = some (blockOf (t :: rest)) := by
  rw [encode_block_from_items_eq]
  unfold blockOf
  rw [List.getLast?_eq_getLast (t :: rest) (List.cons_ne_nil t rest)]
  rfl

theorem mapM_encode_blocks : ∀ (chunks : List (List Item)),
    (∀ c ∈ chunks, c ≠ []) →
    chunks.mapM (fun c => encode_block_from_items c c.length)
      = some (chunks.map blockOf) := by
  intro chunks
  induction chunks with
  | nil => intro _; rfl
  | cons c cs ih =>
    intro h
    rcases c with _ | ⟨t, cr⟩
    · exact absurd rfl (h [] (List.mem_cons_self _ _))
    simp only [List.mapM_cons]
    rw [encode_block_blockOf, ih (fun x hx => h x (List.mem_cons_of_mem _ hx))]
    rfl

theorem decode_block_checked_pair (k v : List Nat) (st : Nat) (r : List Nat)
    (hk : varuint_decode k = some (st, r)) :
    decode_block_checked (k, v)
      = (if (ItemDecoder.decodeBlock v st).2 then none
         else some (ItemDecoder.decodeBlock v st).1) := by
  unfold decode_block_checked
  rw [show ((k, v).1 : List Nat) = k from rfl, hk]

theorem decode_block_checked_blockOf (t : Item) (rest : List Item)
    (h0 : ∀ y ∈ t :: rest, y.timestamp ≠ 0)
    (h64 : ∀ y ∈ t :: rest, y.timestamp < 2 ^ 64)
    (hdata : ∀ y ∈ t :: rest, y.data.length < 2 ^ 64) :
    decode_block_checked ((blockOf (t :: rest)).key, (blockOf (t :: rest)).data)
      = some (t :: rest) := by
  rw [blockOf_key, blockOf_data,
    decode_block_checked_pair _ _ t.timestamp _
      (varuint_decode_encode t.timestamp (h64 t (List.mem_cons_self t rest)) _),
    decodeBlock_encodeItems t rest h0 h64 hdata]
  rfl

theorem decodeBlocksAll_chunks : ∀ (chunks : List (List Item)),
    (∀ c ∈ chunks, c ≠ []) →
    (∀ c ∈ chunks, ∀ y ∈ c, y.timestamp ≠ 0 ∧ y.timestamp < 2 ^ 64 ∧
      y.data.length < 2 ^ 64) →
    decodeBlocksAll (chunks.map (fun c => ((blockOf c).key, (blockOf c).data)))
      = some chunks.flatten := by
  intro chunks
  induction chunks with
  | nil => intro _ _; rfl
  | cons c cs ih =>
    intro hne hprop
    rcases c with _ | ⟨t, cr⟩
    · exact absurd rfl (hne [] (List.mem_cons_self _ _))
    have hblock := decode_block_checked_blockOf t cr
        (fun y hy => (hprop _ (List.mem_cons_self _ _) y hy).1)
        (fun y hy => (hprop _ (List.mem_cons_self _ _) y hy).2.1)
        (fun y hy => (hprop _ (List.mem_cons_self _ _) y hy).2.2)
    have hrest := ih (fun x hx => hne x (List.mem_cons_of_mem _ hx))
        (fun x hx => hprop x (List.mem_cons_of_mem _ hx))
    simp only [List.map_cons, decodeBlocksAll]
    split
    · rename_i heq
      rw [hblock] at heq
      cases heq
    · rename_i items heq
      rw [hblock] at heq
      injection heq with heq'
      subst heq'
      split
      · rename_i heq2
        rw [hrest] at heq2
        cases heq2
      · rename_i acc heq2
        rw [hrest] at heq2
        injection heq2 with heq2'
        subst heq2'
        rw [List.flatten_cons]

theorem treeInsert_append (k v : List Nat) :
    ∀ (l : List (List Nat × List Nat)), (∀ kv ∈ l, lexLt kv.1 k = true) →
    treeInsert k v l = l ++ [(k, v)] := by
  intro l
  induction l with
  | nil => intro _; rfl
  | cons kv rest ih =>
    intro h
    obtain ⟨k2, v2⟩ := kv
    have h1 : lexLt k2 k = true := h (k2, v2) (List.mem_cons_self _ _)
    have hnlt : ¬ (lexLt k k2 = true) := by
      rw [lexLt_asymm k2 k h1]
      simp
    have hne : ¬ (k = k2) := by
      intro he
      rw [he, lexLt_irrefl] at h1
      exact Bool.noConfusion h1
    simp only [treeInsert]
    rw [if_neg hnlt, if_neg hne, ih (fun x hx => h x (List.mem_cons_of_mem _ hx))]
    rfl

theorem foldl_treeInsert_blocks : ∀ (nbs : List Block) (acc : List (List Nat × List Nat)),
    (∀ kv ∈ acc, ∀ b ∈ nbs, lexLt kv.1 b.key = true) →
    nbs.Pairwise (fun b1 b2 => lexLt b1.key b2.key = true) →
    nbs.foldl (fun t b => treeInsert b.key b.data t) acc
      = acc ++ nbs.map (fun b => (b.key, b.data)) := by
  intro nbs
  induction nbs with
  | nil =>
    intro acc _ _
    simp
  | cons b rest ih =>
    intro acc h hp
    rw [List.pairwise_cons] at hp
    simp only [List.foldl_cons]
    rw [treeInsert_append b.key b.data acc
      (fun kv hkv => h kv hkv b (List.mem_cons_self b rest))]
    have hcross : ∀ kv ∈ acc ++ [(b.key, b.data)], ∀ b2 ∈ rest,
        lexLt kv.1 b2.key = true := by
      intro kv hkv b2 hb2
      rw [List.mem_append] at hkv
      rcases hkv with hkv | hkv
      · exact h kv hkv b2 (List.mem_cons_of_mem b hb2)
      · rw [List.mem_singleton] at hkv
        subst hkv
        exact hp.1 b2 hb2
    rw [ih (acc ++ [(b.key, b.data)]) hcross hp.2]
    simp

theorem key_in_range_of_lt (a b : Nat) (ha : a < 2 ^ 64 - 1) (hb : b < 2 ^ 64) :
    compactKeyInRange Bound.unbounded Bound.unbounded
      (varuint_encode a ++ varuint_encode b) = true := by
  have h2 : lexLt (varuint_encode a ++ varuint_encode b)
      (varints_unsigned_encoded [compactEndLimit Bound.unbounded]) = true := by
    rw [show varints_unsigned_encoded [compactEndLimit Bound.unbounded]
        = varuint_encode (2 ^ 64 - 1) ++ [] from rfl]
    exact varuint_encode_lexLt a (2 ^ 64 - 1) (by omega) (by omega) (by omega) _ _
  have h1 : lexLt (varuint_encode a ++ varuint_encode b)
      (varints_unsigned_encoded [compactStartLimit Bound.unbounded]) = false := by
    rw [show varints_unsigned_encoded [compactStartLimit Bound.unbounded] = [0] from rfl]
    rw [varuint_encode_head a (by omega), List.cons_append]
    exact lexLt_cons_zero _ _
  unfold compactKeyInRange
  rw [h1, h2]
  rfl

theorem chunks_pairwise_keys (chunks : List (List Item))
    (hne : ∀ c ∈ chunks, c ≠ [])
    (h64 : ∀ c ∈ chunks, ∀ y ∈ c, y.timestamp < 2 ^ 64)
    (hp : chunks.Pairwise (fun c d => ∀ a ∈ c, ∀ b ∈ d, a.timestamp < b.timestamp)) :
    (chunks.map blockOf).Pairwise (fun b1 b2 => lexLt b1.key b2.key = true) := by
  rw [List.pairwise_map]
  have hp2 := List.Pairwise.and_mem.mp hp
  refine hp2.imp ?_
  intro c d h
  obtain ⟨hc, hd, hcd⟩ := h
  rcases c with _ | ⟨tc, rc⟩
  · exact absurd rfl (hne [] hc)
  rcases d with _ | ⟨td, rd⟩
  · exact absurd rfl (hne [] hd)
  rw [blockOf_key tc rc, blockOf_key td rd]
  exact varuint_encode_lexLt tc.timestamp td.timestamp
    (h64 _ hc tc (List.mem_cons_self tc rc)) (h64 _ hd td (List.mem_cons_self td rd))
    (hcd tc (List.mem_cons_self tc rc) td (List.mem_cons_self td rd)) _ _

theorem insertSorted_perm (a : Item) : ∀ (l : List Item),
    List.Perm (insertSorted a l) (a :: l) := by
  intro l
  induction l with
  | nil => exact List.Perm.refl _
  | cons b bs ih =>
    simp only [insertSorted]
    by_cases h : a.timestamp ≤ b.timestamp
    · rw [if_pos h]
    · rw [if_neg h]
      exact (List.Perm.cons b ih).trans (List.Perm.swap a b bs)

theorem insertSorted_pairwise (a : Item) : ∀ (l : List Item),
    l.Pairwise (fun x y => x.timestamp ≤ y.timestamp) →
    (insertSorted a l).Pairwise (fun x y => x.timestamp ≤ y.timestamp) := by
  intro l
  induction l with
  | nil =>
    intro _
    exact List.Pairwise.cons (fun b hb => absurd hb (List.not_mem_nil b)) List.Pairwise.nil
  | cons b bs ih =>
    intro hp
    rw [List.pairwise_cons] at hp
    simp only [insertSorted]
    by_cases h : a.timestamp ≤ b.timestamp
    · rw [if_pos h]
      refine List.Pairwise.cons ?_ (List.Pairwise.cons hp.1 hp.2)
      intro y hy
      rw [List.mem_cons] at hy
      rcases hy with rfl | hy
      · exact h
      · exact Nat.le_trans h (hp.1 y hy)
    · rw [if_neg h]
      refine List.Pairwise.cons ?_ (ih hp.2)
      intro y hy
      have hy2 := (insertSorted_perm a bs).mem_iff.mp hy
      rw [List.mem_cons] at hy2
      rcases hy2 with rfl | hy2
      · omega
      · exact hp.1 y hy2

theorem sortItems_pairwise : ∀ (l : List Item),
    (sortItems l).Pairwise (fun x y => x.timestamp ≤ y.timestamp) := by
  intro l
  induction l with
  | nil => exact List.Pairwise.nil
  | cons a as ih => exact insertSorted_pairwise a (sortItems as) ih

theorem sortItems_perm : ∀ (l : List Item), List.Perm (sortItems l) l := by
  intro l
  induction l with
  | nil => exact List.Perm.refl _
  | cons a as ih =>
    exact (insertSorted_perm a (sortItems as)).trans (List.Perm.cons a ih)

theorem sortItems_of_sorted : ∀ (l : List Item),
    l.Pairwise (fun x y => x.timestamp ≤ y.timestamp) → sortItems l = l := by
  intro l
  induction l with
  | nil => intro _; rfl
  | cons a as ih =>
    intro hp
    rw [List.pairwise_cons] at hp
    simp only [sortItems]
    rw [ih hp.2]
    cases as with
    | nil => rfl
    | cons b bs =>
      simp only [insertSorted]
      rw [if_pos (hp.1 b (List.mem_cons_self b bs))]

set_option maxRecDepth 10000 in
/-- **C6** counterexample: a partition of four single-item blocks whose first
item has timestamp 0.  The first compaction (target 2, unbounded, sorted)
merges items with timestamps 0 and 7 into one block; because the encoder's
`prev_timestamp == 0` sentinel never leaves first-item mode after a
timestamp-0 item, that block's bytes re-decode (without error) to different
items, so the second compaction rewrites different data: the flattened
items after the second call differ from those after the first. -/
theorem c6_compact_not_idempotent_counterexample :
    flattenTree (compact (compact
        [([0, 0], [1, 2]), ([7, 7], [2, 1, 5]), ([9, 9], [1, 3]), ([11, 11], [1, 4])]
        2 .unbounded .unbounded true) 2 .unbounded .unbounded true)
      ≠ flattenTree (compact
        [([0, 0], [1, 2]), ([7, 7], [2, 1, 5]), ([9, 9], [1, 3]), ([11, 11], [1, 4])]
        2 .unbounded .unbounded true) := by decide

/-- **C6** (amended): compaction with a sorted unbounded range is idempotent
on partitions whose blocks all lie in the scanned key range and decode
cleanly to items with pairwise-distinct, nonzero timestamps below
2^64 − 1: the second `compact(target, .., sort=true)` rebuilds exactly the
first call's tree, so the flattened items are equal and the block count does
not increase.  (Without the timestamp hypotheses the claim is false: see the
counterexample.) -/
theorem c6_compact_idempotence (tree : List (List Nat × List Nat)) (T : Nat)
    (items0 : List Item) (hT : 0 < T)
    (hin : ∀ kv ∈ tree, compactKeyInRange Bound.unbounded Bound.unbounded kv.1 = true)
    (hdec : decodeBlocksAll tree = some items0)
    (h0 : ∀ it ∈ items0, it.timestamp ≠ 0)
    (hM : ∀ it ∈ items0, it.timestamp < 2 ^ 64 - 1)
    (hdata : ∀ it ∈ items0, it.data.length < 2 ^ 64)
    (hnodup : (items0.map Item.timestamp).Nodup) :
    compact (compact tree T Bound.unbounded Bound.unbounded true) T Bound.unbounded
        Bound.unbounded true
      = compact tree T Bound.unbounded Bound.unbounded true ∧
    flattenTree (compact (compact tree T Bound.unbounded Bound.unbounded true) T
        Bound.unbounded Bound.unbounded true)
      = flattenTree (compact tree T Bound.unbounded Bound.unbounded true) ∧
    (compact (compact tree T Bound.unbounded Bound.unbounded true) T Bound.unbounded
        Bound.unbounded true).length
      ≤ (compact tree T Bound.unbounded Bound.unbounded true).length := by
  have hfil : tree.filter (fun kv =>
      compactKeyInRange Bound.unbounded Bound.unbounded kv.1) = tree :=
    List.filter_eq_self.mpr hin
  have hmain : compact (compact tree T Bound.unbounded Bound.unbounded true) T
      Bound.unbounded Bound.unbounded true
      = compact tree T Bound.unbounded Bound.unbounded true := by
    by_cases hlen : (tree.filter fun kv =>
        compactKeyInRange Bound.unbounded Bound.unbounded kv.1).length < 2
    · have h1 : compact tree T Bound.unbounded Bound.unbounded true = tree :=
        compact_no_op tree T Bound.unbounded Bound.unbounded true hlen
      rw [h1]
      exact h1
    · have hS_pair : (sortItems items0).Pairwise
          (fun a b => a.timestamp < b.timestamp) := by
        have hle := sortItems_pairwise items0
        have hperm := sortItems_perm items0
        have hnd : ((sortItems items0).map Item.timestamp).Nodup :=
          ((hperm.map Item.timestamp).nodup_iff).mpr hnodup
        have hne2 := List.pairwise_map.mp hnd
        have hcomb := hle.and hne2
        refine hcomb.imp ?_
        intro a b h
        have h1 := h.1
        have h2 := h.2
        omega
      have hchprop : ∀ c ∈ chunksOf T (sortItems items0), ∀ y ∈ c,
          y.timestamp ≠ 0 ∧ y.timestamp < 2 ^ 64 - 1 ∧ y.data.length < 2 ^ 64 := by
        intro c hc y hy
        have hm : y ∈ items0 := (sortItems_perm items0).mem_iff.mp
          (mem_of_mem_chunksOf T hT _ c hc y hy)
        exact ⟨h0 y hm, hM y hm, hdata y hm⟩
      have hcross : (chunksOf T (sortItems items0)).Pairwise
          (fun c d => ∀ x ∈ c, ∀ y ∈ d, x.timestamp < y.timestamp) := by
        have hflat := chunksOf_flatten T hT (sortItems items0)
        have hpf := List.pairwise_flatten.mp (by rw [hflat]; exact hS_pair)
        exact hpf.2
      have hmapM := mapM_encode_blocks (chunksOf T (sortItems items0))
        (fun c hc => chunksOfAux_ne_nil _ T _ c hc)
      have hkeys := chunks_pairwise_keys (chunksOf T (sortItems items0))
        (fun c hc => chunksOfAux_ne_nil _ T _ c hc)
        (fun c hc y hy => by have := (hchprop c hc y hy).2.1; omega)
        hcross
      have hcall1 : compact tree T Bound.unbounded Bound.unbounded true
          = ((chunksOf T (sortItems items0)).map blockOf).foldl
              (fun t b => treeInsert b.key b.data t)
              (tree.filter fun kv =>
                !compactKeyInRange Bound.unbounded Bound.unbounded kv.1) :=
        compact_success tree T Bound.unbounded Bound.unbounded true items0
          (sortItems items0) ((chunksOf T (sortItems items0)).map blockOf)
          hlen (by rw [hfil]; exact hdec) rfl hmapM
      have hsurv : (tree.filter fun kv =>
          !compactKeyInRange Bound.unbounded Bound.unbounded kv.1) = [] := by
        rw [List.filter_eq_nil_iff]
        intro kv hkv
        rw [hin kv hkv]
        simp
      have htree1 : compact tree T Bound.unbounded Bound.unbounded true
          = ((chunksOf T (sortItems items0)).map blockOf).map
              (fun b => (b.key, b.data)) := by
        rw [hcall1, hsurv,
          foldl_treeInsert_blocks _ []
            (fun kv hkv => absurd hkv (List.not_mem_nil kv)) hkeys]
        simp
      have htree1_keys : ∀ kv ∈ ((chunksOf T (sortItems items0)).map blockOf).map
            (fun b => (b.key, b.data)),
          compactKeyInRange Bound.unbounded Bound.unbounded kv.1 = true := by
        intro kv hkv
        rw [List.mem_map] at hkv
        obtain ⟨bl, hbl, rfl⟩ := hkv
        rw [List.mem_map] at hbl
        obtain ⟨c, hc, rfl⟩ := hbl
        rcases c with _ | ⟨t, r⟩
        · exact absurd rfl (chunksOfAux_ne_nil _ T _ [] hc)
        · show compactKeyInRange Bound.unbounded Bound.unbounded
            (blockOf (t :: r)).key = true
          rw [blockOf_key]
          refine key_in_range_of_lt t.timestamp _ ?_ ?_
          · exact (hchprop _ hc t (List.mem_cons_self t r)).2.1
          · have := (hchprop _ hc ((t :: r).getLast (List.cons_ne_nil t r))
              (List.getLast_mem (List.cons_ne_nil t r))).2.1
            omega
      have hfil1 : (((chunksOf T (sortItems items0)).map blockOf).map
            (fun b => (b.key, b.data))).filter
          (fun kv => compactKeyInRange Bound.unbounded Bound.unbounded kv.1)
          = ((chunksOf T (sortItems items0)).map blockOf).map
              (fun b => (b.key, b.data)) :=
        List.filter_eq_self.mpr htree1_keys
      have hmapmap : ((chunksOf T (sortItems items0)).map blockOf).map
            (fun b => (b.key, b.data))
          = (chunksOf T (sortItems items0)).map
              (fun c => ((blockOf c).key, (blockOf c).data)) := by
        rw [List.map_map]
        rfl
      have hdec1 : decodeBlocksAll ((chunksOf T (sortItems items0)).map
            (fun c => ((blockOf c).key, (blockOf c).data)))
          = some (sortItems items0) := by
        have h := decodeBlocksAll_chunks (chunksOf T (sortItems items0))
          (fun c hc => chunksOfAux_ne_nil _ T _ c hc)
          (fun c hc y hy => by
            obtain ⟨p1, p2, p3⟩ := hchprop c hc y hy
            exact ⟨p1, by omega, p3⟩)
        rw [chunksOf_flatten T hT] at h
        exact h
      have hsort2 : sortItems (sortItems items0) = sortItems items0 :=
        sortItems_of_sorted (sortItems items0) (sortItems_pairwise items0)
      by_cases hlen2 : ((((chunksOf T (sortItems items0)).map blockOf).map
            (fun b => (b.key, b.data))).filter
          (fun kv => compactKeyInRange Bound.unbounded Bound.unbounded kv.1)).length < 2
      · rw [htree1]
        exact compact_no_op _ T Bound.unbounded Bound.unbounded true hlen2
      · have hcall2 : compact (((chunksOf T (sortItems items0)).map blockOf).map
              (fun b => (b.key, b.data))) T Bound.unbounded Bound.unbounded true
            = ((chunksOf T (sortItems items0)).map blockOf).foldl
                (fun t b => treeInsert b.key b.data t)
                ((((chunksOf T (sortItems items0)).map blockOf).map
                    (fun b => (b.key, b.data))).filter
                  (fun kv =>
                    !compactKeyInRange Bound.unbounded Bound.unbounded kv.1)) :=
          compact_success _ T Bound.unbounded Bound.unbounded true
            (sortItems items0) (sortItems items0)
            ((chunksOf T (sortItems items0)).map blockOf)
            hlen2
            (by rw [hfil1, hmapmap]; exact hdec1)
            (by rw [if_pos rfl]; exact hsort2)
            hmapM
        have hsurv2 : ((((chunksOf T (sortItems items0)).map blockOf).map
              (fun b => (b.key, b.data))).filter
            (fun kv => !compactKeyInRange Bound.unbounded Bound.unbounded kv.1))
            = [] := by
          rw [List.filter_eq_nil_iff]
          intro kv hkv
          rw [htree1_keys kv hkv]
          simp
        rw [htree1, hcall2, hsurv2,
          foldl_treeInsert_blocks _ []
            (fun kv hkv => absurd hkv (List.not_mem_nil kv)) hkeys]
        simp
  exact ⟨hmain, by rw [hmain], Nat.le_of_eq (by rw [hmain])⟩

theorem c6_compact_idempotence_witness :
    decodeBlocksAll [([1, 1], [1, 3]), ([5, 5], [1, 4])]
      = some [⟨1, [3]⟩, ⟨5, [4]⟩] ∧
    compact (compact [([1, 1], [1, 3]), ([5, 5], [1, 4])] 1 Bound.unbounded
        Bound.unbounded true) 1 Bound.unbounded Bound.unbounded true
      = compact [([1, 1], [1, 3]), ([5, 5], [1, 4])] 1 Bound.unbounded
        Bound.unbounded true := by
  constructor
  · decide
  · exact (c6_compact_idempotence [([1, 1], [1, 3]), ([5, 5], [1, 4])] 1
      [⟨1, [3]⟩, ⟨5, [4]⟩] (by decide) (by decide) (by decide) (by decide)
      (by decide) (by decide) (by decide)).1
